import Mathlib

/-!
# pbar: a terminal progress bar (`progress.go`)

A shallow embedding of `ProgressBar` and of the functions `NewProgressBar`,
`NewAsyncProgressBar`, `NewMultilineProgressBar`, `AddAsync`, `Add`, `cleanUp`,
`updateWSize` and `checkIsTerminal`.

* `uint16` values are naturals below `65536`; every `uint16` operation is written with
  an explicit `% 65536`.  `int` is the 64-bit Go integer, modelled by `Int`.
* `float64` is modelled exactly: a finite binary64 number is a sign, a natural
  significand and a binary exponent, and every operation rounds the exact result to
  53 significant bits, ties to even.  All magnitudes that `Add` produces lie between
  `2^-80` and `2^64`, far inside the exponent range of binary64, so neither overflow
  nor subnormal numbers are modelled.  Division by zero leaves the finite numbers and
  is reported as a fault (the conversion of the result to `int` is
  implementation-dependent in Go).
* The `TIOCGWINSZ` ioctl is an input of the model: its outcome is given to
  `checkIsTerminal`, `updateWSize` and the constructors.
* Standard output is the string of all bytes written so far.
* The unbuffered channel `progressCh` is the list of values whose senders wait for the
  consumer goroutine of `NewAsyncProgressBar`.
-/

set_option maxRecDepth 100000

namespace Pbar

/-! ## binary64 -/

/-- A finite binary64 number: `(-1)^neg * man * 2^exp`. -/
structure F64 where
  neg : Bool
  man : Nat
  exp : Int
deriving DecidableEq, Repr

/-- Nearest integer to `n / d`, ties to the even integer. -/
def roundHalfEven (n d : Nat) : Nat :=
  if 2 * (n % d) < d then n / d
  else if d < 2 * (n % d) then n / d + 1
  else if (n / d) % 2 = 0 then n / d
  else n / d + 1

/-- Numerator of `(n / d) * 2^k`. -/
def scaleNum (n : Nat) (k : Int) : Nat := if 0 ≤ k then n * 2 ^ k.toNat else n

/-- Denominator of `(n / d) * 2^k`. -/
def scaleDen (d : Nat) (k : Int) : Nat := if 0 ≤ k then d else d * 2 ^ (-k).toNat

/-- Number of binary digits, by halving at most `fuel` times. -/
def bitsAux : Nat → Nat → Nat
  | 0, _ => 0
  | fuel + 1, n => if n = 0 then 0 else bitsAux fuel (n / 2) + 1

/-- Number of binary digits of `n`. -/
def bits (n : Nat) : Nat := bitsAux n n

/-- The scale `k` with `2^52 ≤ (n / d) * 2^k < 2^53`, for positive `n` and `d`. -/
def normScale (n d : Nat) : Int :=
  if scaleNum n (52 + (bits d : Int) - (bits n : Int))
      < 2 ^ 52 * scaleDen d (52 + (bits d : Int) - (bits n : Int))
  then 52 + (bits d : Int) - (bits n : Int) + 1
  else 52 + (bits d : Int) - (bits n : Int)

/-- Round the positive rational `n / d` to 53 significant bits, ties to even:
the result `(m, e)` stands for `m * 2^e`. -/
def roundQ (n d : Nat) : Nat × Int :=
  (roundHalfEven (scaleNum n (normScale n d)) (scaleDen d (normScale n d)), -normScale n d)

namespace F64

/-- Positive zero. -/
def zero : F64 := ⟨false, 0, 0⟩

/-- Conversion `float64(i)` of an integer. -/
def ofInt (i : Int) : F64 :=
  if i = 0 then zero
  else ⟨decide (i < 0), (roundQ i.natAbs 1).1, (roundQ i.natAbs 1).2⟩

/-- The function `math.Abs`. -/
def abs (a : F64) : F64 := { a with neg := false }

/-- Product `a * b`. -/
def mul (a b : F64) : F64 :=
  if a.man = 0 ∨ b.man = 0 then ⟨xor a.neg b.neg, 0, 0⟩
  else ⟨xor a.neg b.neg, (roundQ (a.man * b.man) 1).1,
        (roundQ (a.man * b.man) 1).2 + a.exp + b.exp⟩

/-- Quotient `a / b`; `none` when `b` is zero (the result is an infinity or a NaN). -/
def div (a b : F64) : Option F64 :=
  if b.man = 0 then none
  else if a.man = 0 then some ⟨xor a.neg b.neg, 0, 0⟩
  else some ⟨xor a.neg b.neg, (roundQ a.man b.man).1,
             (roundQ a.man b.man).2 + a.exp - b.exp⟩

/-- Integer part of the magnitude. -/
def truncMag (a : F64) : Nat :=
  if 0 ≤ a.exp then a.man * 2 ^ a.exp.toNat else a.man / 2 ^ (-a.exp).toNat

/-- Conversion `int(a)`: truncation toward zero; `none` when the integer part does not
fit the 64-bit `int` (the result is then implementation-dependent). -/
def toInt (a : F64) : Option Int :=
  if a.truncMag < 2 ^ 63 ∨ (a.neg = true ∧ a.truncMag = 2 ^ 63) then
    some (if a.neg then -(a.truncMag : Int) else (a.truncMag : Int))
  else none

/-- The rational number a binary64 value stands for. -/
def val (a : F64) : ℚ := (if a.neg then -1 else 1) * (a.man : ℚ) * (2 : ℚ) ^ a.exp

end F64

/-! ## Go integers, strings and formatting -/

/-- Conversion `uint16(i)` of an `int`. -/
def toU16 (i : Int) : Nat := (i % 65536).toNat

/-- Sum of two `uint16`. -/
def addU16 (a b : Nat) : Nat := (a + b) % 65536

/-- Difference of two `uint16`. -/
def subU16 (a b : Nat) : Nat := (a + 65536 - b % 65536) % 65536

/-- Wrap-around of 64-bit `int` arithmetic. -/
def wrapInt (i : Int) : Int := (i + 2 ^ 63) % 2 ^ 64 - 2 ^ 63

/-- The text `s` repeated `n` times. -/
def repeatStr (s : String) (n : Nat) : String := Nat.repeat (fun acc => acc ++ s) n ""

/-- Faults that end `Add` abnormally. -/
inductive Fault where
  /-- A run-time panic, such as a negative count given to `strings.Repeat`. -/
  | goPanic
  /-- A float to integer conversion whose result Go leaves implementation-dependent. -/
  | implDependent
deriving DecidableEq, Repr

/-- The function `strings.Repeat`; it panics on a negative count. -/
def stringsRepeat (s : String) (count : Int) : Except Fault String :=
  if count < 0 then .error .goPanic else .ok (repeatStr s count.toNat)

/-- The verb `%d`. -/
def fmtD (i : Int) : String := toString i

/-- The verb `%3d`: right-aligned in a field of width three. -/
def fmt3D (i : Int) : String := repeatStr " " (3 - (toString i).length) ++ toString i

/-- Conversion of a float to `int` inside `Add`. -/
def intOfF64 (a : Option F64) : Except Fault Int :=
  match a with
  | none => .error .implDependent
  | some x =>
    match x.toInt with
    | none => .error .implDependent
    | some i => .ok i

/-! ## The progress bar -/

/-- The window size structure filled by the `TIOCGWINSZ` ioctl. -/
structure WinSize where
  Row : Nat
  Col : Nat
  Xpixel : Nat
  Ypixel : Nat
deriving DecidableEq, Repr

/-- The struct `ProgressBar`. -/
structure ProgressBar where
  /-- Actual number of iterations (`uint16`). -/
  actual : Nat
  /-- Total number of iterations to sum 100% (`int`). -/
  Total : Int
  /-- Header length (`uint16`). -/
  header : Nat
  /-- Window width (`uint16`). -/
  wscol : Nat
  /-- Window height (`uint16`). -/
  wsrow : Nat
  doneStr : String
  ongoingStr : String
  /-- Values sent on the channel and not yet received by the consumer. -/
  progressCh : List Int
  async : Bool
  multiLine : Bool
  /-- Whether `sigTermCh` has been closed. -/
  sigTermChClosed : Bool
  /-- Whether `once.Do` has already run. -/
  once : Bool
  winSize : WinSize
deriving DecidableEq, Repr

/-- A bar together with the bytes written to standard output so far and a count of the
invocations of `cleanUp` (an observation, not a field of the program). -/
structure World where
  pb : ProgressBar
  out : String
  cleanUpCalls : Nat
deriving DecidableEq, Repr

/-- The functions `fmt.Print` and `fmt.Printf`, once the text is formatted. -/
def print (w : World) (s : String) : World := { w with out := w.out ++ s }

/-- Outcome of the `TIOCGWINSZ` ioctl on standard input. -/
inductive Ioctl where
  /-- Success: the kernel fills the four `uint16` fields. -/
  | ok (row col xpixel ypixel : Nat)
  | enotty
  | enodev
  /-- Any other error number. -/
  | failed (errno : Nat)
deriving DecidableEq, Repr

/-- The method `checkIsTerminal`: the bar after the system call, and `(isTerminal, err)`,
where `err` is `none` for `nil`.  A call that fails writes nothing to `winSize`. -/
def checkIsTerminal (pb : ProgressBar) (r : Ioctl) : ProgressBar × Bool × Option Nat :=
  match r with
  | .ok row col xp yp =>
    ({ pb with winSize := ⟨row % 65536, col % 65536, xp % 65536, yp % 65536⟩ }, true, none)
  | .enotty => (pb, false, none)
  | .enodev => (pb, false, none)
  | .failed e => (pb, false, some e)

/-- The method `updateWSize`; the second component is the error (`none` for `nil`). -/
def updateWSize (w : World) (r : Ioctl) : World × Option Nat :=
  match checkIsTerminal w.pb r with
  | (pb, _, some e) => ({ w with pb := pb }, some e)
  | (pb, false, none) => ({ w with pb := pb }, none)
  | (pb, true, none) =>
    let pb := { pb with wscol := pb.winSize.Col }
    let pb := { pb with wsrow := pb.winSize.Row }
    let pb :=
      if 0 ≤ pb.wscol ∧ pb.wscol ≤ 9 then { pb with header := 6 }
      else if 10 ≤ pb.wscol ∧ pb.wscol ≤ 20 then { pb with header := 9 }
      else { pb with header := 19 }
    let w := { w with pb := pb }
    let w := print w "\x1BD"
    let w := print w "\x1B7"
    let w := print w ("\x1B[0;" ++ fmtD (subU16 pb.wsrow 1) ++ "r")
    let w := print w "\x1B8"
    let w := print w "\x1B[1A"
    (w, none)

/-- The function `NewProgressBar`, given the outcome of the size query it makes.
The error of `updateWSize` is dropped, and `signalHandler` only starts the listener. -/
def NewProgressBar (total : Int) (r : Ioctl) : World :=
  let pb : ProgressBar :=
    { actual := 0, Total := total, header := 0, wscol := 0, wsrow := 0,
      doneStr := "#", ongoingStr := " ", progressCh := [], async := false,
      multiLine := false, sigTermChClosed := false, once := false,
      winSize := ⟨0, 0, 0, 0⟩ }
  (updateWSize ⟨pb, "", 0⟩ r).1

/-- The function `NewAsyncProgressBar`. -/
def NewAsyncProgressBar (total : Int) (r : Ioctl) : World :=
  let w := NewProgressBar total r
  { w with pb := { w.pb with async := true } }

/-- The function `NewMultilineProgressBar`. -/
def NewMultilineProgressBar (total : Int) (r : Ioctl) : World :=
  let w := NewProgressBar total r
  { w with pb := { w.pb with multiLine := true } }

/-- The call `pb.once.Do(func() { close(pb.sigTermCh) })`. -/
def onceClose (pb : ProgressBar) : ProgressBar :=
  if pb.once = true then pb else { pb with once := true, sigTermChClosed := true }

/-- The method `cleanUp`. -/
def cleanUp (w : World) : World :=
  let w : World := { w with pb := onceClose w.pb, cleanUpCalls := w.cleanUpCalls + 1 }
  if w.pb.winSize.Col = 0 ∨ w.pb.winSize.Row = 0 then w
  else if w.pb.multiLine = true then
    let w := print w "\x1B7"
    let w := print w ("\x1B[0;" ++ fmtD w.pb.wsrow ++ "r")
    let w := print w ("\x1B[" ++ fmtD w.pb.wsrow ++ ";0f")
    let w := print w "\x1B[0K"
    let w := print w "\x1B8"
    w
  else w

/-- The value `barWidth` of `Add`. -/
def barWidth (wscol header : Nat) : Except Fault Int :=
  intOfF64 (some (F64.abs (F64.ofInt (subU16 wscol header))))

/-- The value `barDone` of `Add`. -/
def barDone (barWidth : Int) (actual : Nat) (Total : Int) : Except Fault Int :=
  intOfF64 (F64.div (F64.mul (F64.ofInt barWidth) (F64.ofInt actual)) (F64.ofInt Total))

/-- The value `percent` of `Add`. -/
def percent (actual : Nat) (Total : Int) : Except Fault Int :=
  intOfF64 ((F64.div (F64.ofInt actual) (F64.ofInt Total)).map
    (fun q => F64.mul q (F64.ofInt 100)))

/-- The string `bar` of `Add`. -/
def barString (doneStr ongoingStr : String) (barWidth barDone : Int) : Except Fault String := do
  let done ← stringsRepeat doneStr barDone
  let todo ← stringsRepeat ongoingStr (barWidth - barDone)
  pure ("[" ++ done ++ todo ++ "]")

/-- The counter update at the start of `Add`. -/
def bump (pb : ProgressBar) (count : Int) : ProgressBar :=
  if addU16 pb.actual (toU16 count) ≤ toU16 pb.Total then
    { pb with actual := addU16 pb.actual (toU16 count) }
  else pb

/-- The cursor handling at the start of a frame. -/
def frameStart (w : World) : World :=
  if w.pb.multiLine = true then
    let w := print w "\x1B7"
    let w := print w "\x1B[2K"
    let w := print w "\x1B[0J"
    let w := print w "\x1B[?47h"
    let w := print w "\x1B[1J"
    let w := print w "\x1B[?47l"
    print w ("\x1B[" ++ fmtD w.pb.wsrow ++ ";" ++ fmtD 0 ++ "H")
  else print w "\x1B[1000D"

/-- The `switch` of `Add` that writes the frame. -/
def drawFrame (w : World) (percent : Int) (bar : String) : World :=
  if 0 ≤ w.pb.wscol ∧ w.pb.wscol ≤ 9 then
    print w ("[\x1B[33m" ++ fmt3D percent ++ "%\x1B[0m]")
  else if 10 ≤ w.pb.wscol ∧ w.pb.wscol ≤ 25 then
    print w ("[\x1B[33m" ++ fmt3D percent ++ "%\x1B[0m] " ++ bar)
  else if toU16 w.pb.Total ≤ w.pb.actual then
    print (cleanUp w)
      ("\x1b[1;92mFinished: \x1b[1;0m[\x1B[1;33m" ++ fmt3D percent ++ "%\x1B[0m]\n")
  else
    print w ("\x1b[1;94mProgress: \x1b[1;0m[\x1B[1;33m" ++ fmt3D percent ++ "%\x1B[0m] " ++ bar)

/-- The deferred `fmt.Print` of the multi-line branch, run when `Add` returns. -/
def frameEnd (w : World) : World :=
  if w.pb.multiLine = true then print w "\x1B8" else w

/-- The method `Add`. -/
def Add (w : World) (count : Int) : Except Fault World :=
  if w.pb.winSize.Col = 0 ∨ w.pb.winSize.Row = 0 then .ok w
  else do
    let w : World := { w with pb := bump w.pb count }
    let w := frameStart w
    let bw ← barWidth w.pb.wscol w.pb.header
    let bd ← barDone bw w.pb.actual w.pb.Total
    let bar ← barString w.pb.doneStr w.pb.ongoingStr bw bd
    let pc ← percent w.pb.actual w.pb.Total
    pure (frameEnd (drawFrame w pc bar))

/-- The method `AddAsync`: the final increment runs `cleanUp`, any other is sent on
the channel, where its sender waits for the consumer. -/
def AddAsync (w : World) (count : Int) : World :=
  if w.pb.async = true then
    if w.pb.Total ≤ wrapInt (count + w.pb.actual) then cleanUp w
    else { w with pb := { w.pb with progressCh := w.pb.progressCh ++ [count] } }
  else w

/-- One turn of the consumer goroutine of `NewAsyncProgressBar`: receive a value from
the channel and call `Add` with it. -/
def consume (w : World) : Except Fault World :=
  if w.pb.async = true then
    match w.pb.progressCh with
    | [] => .ok w
    | p :: rest => Add { w with pb := { w.pb with progressCh := rest } } p
  else .ok w

/-- What can happen to a bar: a call of `Add`, a call of `AddAsync`, a consumer turn. -/
inductive Event where
  | add (count : Int)
  | addAsync (count : Int)
  | consume
deriving DecidableEq, Repr

/-- The bar after one event. -/
def step (w : World) : Event → Except Fault World
  | .add c => Add w c
  | .addAsync c => .ok (AddAsync w c)
  | .consume => consume w

/-- The bar after a sequence of events. -/
def run (w : World) : List Event → Except Fault World
  | [] => .ok w
  | e :: es => (step w e).bind (fun w1 => run w1 es)

/-! ## Notions used in the statements -/

/-- The sequential schedule of `n` calls `AddAsync(1)`: the consumer applies each
increment before the next call is made. -/
def sequential : Nat → List Event
  | 0 => []
  | n + 1 => .addAsync 1 :: .consume :: sequential n

/-- Rendering is enabled: the stored window size has a column and a row. -/
def Enabled (w : World) : Prop := w.pb.winSize.Col ≠ 0 ∧ w.pb.winSize.Row ≠ 0

instance (w : World) : Decidable (Enabled w) := by
  unfold Enabled
  infer_instance

/-- The bytes one call of `cleanUp` writes. -/
def cleanUpBytes (pb : ProgressBar) : String :=
  if pb.winSize.Col = 0 ∨ pb.winSize.Row = 0 then ""
  else if pb.multiLine = true then
    "\x1B7" ++ ("\x1B[0;" ++ fmtD pb.wsrow ++ "r") ++ ("\x1B[" ++ fmtD pb.wsrow ++ ";0f")
      ++ "\x1B[0K" ++ "\x1B8"
  else ""

/-- The bytes `Add` writes before the frame. -/
def frameStartBytes (pb : ProgressBar) : String :=
  if pb.multiLine = true then
    "\x1B7" ++ "\x1B[2K" ++ "\x1B[0J" ++ "\x1B[?47h" ++ "\x1B[1J" ++ "\x1B[?47l"
      ++ ("\x1B[" ++ fmtD pb.wsrow ++ ";" ++ fmtD 0 ++ "H")
  else "\x1B[1000D"

/-- The bytes `Add` writes after the frame. -/
def frameEndBytes (pb : ProgressBar) : String :=
  if pb.multiLine = true then "\x1B8" else ""

/-- A single-line bar for ten units on a terminal of 80 columns and 24 rows. -/
def demoBar : World := NewProgressBar 10 (.ok 24 80 0 0)

/-- The bar `demoBar` once nine units are completed. -/
def demoBar9 : World := { demoBar with pb := { demoBar.pb with actual := 9 } }

/-- A multi-line bar for eight units on a terminal of 80 columns and 24 rows. -/
def demoMulti : World := NewMultilineProgressBar 8 (.ok 24 80 0 0)

/-- The invariant of a bar with the given total: the counter is a `uint16` and does not
exceed the total. -/
def Good (total : Int) (w : World) : Prop :=
  w.pb.Total = total ∧ w.pb.actual < 65536 ∧ (w.pb.actual : Int) ≤ total

/-- An asynchronous bar with rendering enabled between two rounds of the sequential
schedule: `i` increments applied, nothing waiting on the channel, no cleanup yet. -/
def AsyncAt (total : Int) (i : Nat) (w : World) : Prop :=
  w.pb.Total = total ∧ w.pb.actual = i ∧ w.pb.async = true ∧ w.pb.progressCh = [] ∧
    w.cleanUpCalls = 0 ∧ Enabled w

/-- The frame of a finished bar in the widest layout. -/
def finishedText (percent : Int) : String :=
  "\x1b[1;92mFinished: \x1b[1;0m[\x1B[1;33m" ++ fmt3D percent ++ "%\x1B[0m]\n"

/-- The condition under which the `switch` of `Add` reaches `cleanUp`: neither of the two
narrow cases applies and the counter has reached `uint16(Total)`. -/
def FinishedWide (pb : ProgressBar) : Prop :=
  ¬ (0 ≤ pb.wscol ∧ pb.wscol ≤ 9) ∧ ¬ (10 ≤ pb.wscol ∧ pb.wscol ≤ 25) ∧
    toU16 pb.Total ≤ pb.actual

instance (pb : ProgressBar) : Decidable (FinishedWide pb) := by
  unfold FinishedWide
  infer_instance

/-- The pair `(m, e)` is a rounding of the positive rational `x` to 53 significant bits:
`x / 2^e` lies in `[2^52, 2^53)` and `m` lies between its floor and its ceiling. -/
def IsRound (x : ℚ) (m : Nat) (e : Int) : Prop :=
  (2 : ℚ) ^ 52 ≤ x * 2 ^ (-e) ∧ x * 2 ^ (-e) < 2 ^ 53 ∧
    (∀ Z : Nat, (Z : ℚ) ≤ x * 2 ^ (-e) → Z ≤ m) ∧ (∀ Z : Nat, x * 2 ^ (-e) ≤ Z → m ≤ Z)

/-- The non-negative binary64 number `a` is a rounding of the positive rational `x`. -/
def Rounds (a : F64) (x : ℚ) : Prop := a.neg = false ∧ IsRound x a.man a.exp

/-! ## Rounding to 53 bits -/

theorem bitsAux_zero (fuel : Nat) : bitsAux fuel 0 = 0 := by
  cases fuel <;> simp [bitsAux]

theorem bitsAux_spec (fuel : Nat) :
    ∀ n, n ≤ fuel → 0 < n → 2 ^ bitsAux fuel n ≤ 2 * n ∧ n < 2 ^ bitsAux fuel n := by
  induction fuel with
  | zero => intro n h1 h2; omega
  | succ f ih =>
    intro n h1 h2
    have hn : n ≠ 0 := by omega
    simp only [bitsAux, hn, if_false]
    rcases Nat.eq_zero_or_pos (n / 2) with h0 | hpos
    · rw [h0, bitsAux_zero]
      have : n = 1 := by omega
      subst this
      simp
    · obtain ⟨ih1, ih2⟩ := ih (n / 2) (by omega) hpos
      rw [pow_succ]
      constructor <;> omega

theorem bits_spec (n : Nat) (h : 0 < n) : 2 ^ bits n ≤ 2 * n ∧ n < 2 ^ bits n :=
  bitsAux_spec n n le_rfl h

theorem scaleDen_pos (d : Nat) (k : Int) (hd : 0 < d) : 0 < scaleDen d k := by
  unfold scaleDen
  split
  · exact hd
  · positivity

theorem scale_ratio (n d : Nat) (k : Int) (hd : 0 < d) :
    ((scaleNum n k : ℕ) : ℚ) / (scaleDen d k : ℕ) = (n : ℚ) / d * 2 ^ k := by
  have hd0 : (d : ℚ) ≠ 0 := by positivity
  unfold scaleNum scaleDen
  by_cases hk : 0 ≤ k
  · simp only [hk, if_true]
    obtain ⟨j, rfl⟩ := Int.eq_ofNat_of_zero_le hk
    simp only [Int.toNat_ofNat, zpow_natCast]
    push_cast
    ring
  · simp only [hk, if_false]
    obtain ⟨j, hj⟩ := Int.eq_ofNat_of_zero_le (show 0 ≤ -k by omega)
    have hk2 : k = -(j : ℤ) := by omega
    subst hk2
    simp only [neg_neg, Int.toNat_ofNat, zpow_neg, zpow_natCast]
    push_cast
    field_simp

theorem ratio_zpow_succ (x : ℚ) (k : Int) : x * 2 ^ (k + 1) = 2 * (x * 2 ^ k) := by
  rw [zpow_add₀ (by norm_num : (2 : ℚ) ≠ 0), zpow_one]
  ring

theorem normScale_spec (n d : Nat) (hn : 0 < n) (hd : 0 < d) :
    (2 : ℚ) ^ 52 ≤ (n : ℚ) / d * 2 ^ normScale n d ∧
      (n : ℚ) / d * 2 ^ normScale n d < 2 ^ 53 := by
  obtain ⟨hn1, hn2⟩ := bits_spec n hn
  obtain ⟨hd1, hd2⟩ := bits_spec d hd
  have hnq : (0 : ℚ) < n := by exact_mod_cast hn
  have hdq : (0 : ℚ) < d := by exact_mod_cast hd
  have hn1q : (2 : ℚ) ^ bits n ≤ 2 * n := by exact_mod_cast hn1
  have hn2q : (n : ℚ) < 2 ^ bits n := by exact_mod_cast hn2
  have hd1q : (2 : ℚ) ^ bits d ≤ 2 * d := by exact_mod_cast hd1
  have hd2q : (d : ℚ) < 2 ^ bits d := by exact_mod_cast hd2
  have hP : (0 : ℚ) < 2 ^ bits n := by positivity
  have hQ : (0 : ℚ) < 2 ^ bits d := by positivity
  have hk0 : (n : ℚ) / d * 2 ^ (52 + (bits d : Int) - (bits n : Int))
      = (n : ℚ) * 2 ^ 52 * 2 ^ bits d / (d * 2 ^ bits n) := by
    rw [zpow_sub₀ (by norm_num : (2 : ℚ) ≠ 0), zpow_add₀ (by norm_num : (2 : ℚ) ≠ 0),
      zpow_natCast, zpow_natCast]
    have : ((2 : ℚ) ^ (52 : ℤ)) = 2 ^ 52 := by norm_cast
    rw [this]
    field_simp
    ring
  have hlo : (2 : ℚ) ^ 51 < (n : ℚ) / d * 2 ^ (52 + (bits d : Int) - (bits n : Int)) := by
    rw [hk0, lt_div_iff₀ (by positivity)]
    have : (d : ℚ) * 2 ^ bits n < 2 * n * 2 ^ bits d := by
      calc (d : ℚ) * 2 ^ bits n ≤ d * (2 * n) := by
            exact mul_le_mul_of_nonneg_left hn1q hdq.le
        _ = 2 * n * d := by ring
        _ < 2 * n * 2 ^ bits d := by
            exact mul_lt_mul_of_pos_left hd2q (by positivity)
    nlinarith
  have hhi : (n : ℚ) / d * 2 ^ (52 + (bits d : Int) - (bits n : Int)) < 2 ^ 53 := by
    rw [hk0, div_lt_iff₀ (by positivity)]
    have : (n : ℚ) * 2 ^ bits d < 2 * d * 2 ^ bits n := by
      calc (n : ℚ) * 2 ^ bits d ≤ n * (2 * d) := by
            exact mul_le_mul_of_nonneg_left hd1q hnq.le
        _ = 2 * d * n := by ring
        _ < 2 * d * 2 ^ bits n := by
            exact mul_lt_mul_of_pos_left hn2q (by positivity)
    nlinarith
  have hcond : scaleNum n (52 + (bits d : Int) - (bits n : Int))
        < 2 ^ 52 * scaleDen d (52 + (bits d : Int) - (bits n : Int)) ↔
      (n : ℚ) / d * 2 ^ (52 + (bits d : Int) - (bits n : Int)) < 2 ^ 52 := by
    rw [← scale_ratio n d _ hd, div_lt_iff₀ (by exact_mod_cast scaleDen_pos d _ hd)]
    norm_cast
  unfold normScale
  by_cases hc : scaleNum n (52 + (bits d : Int) - (bits n : Int))
        < 2 ^ 52 * scaleDen d (52 + (bits d : Int) - (bits n : Int))
  · rw [if_pos hc, ratio_zpow_succ]
    have := hcond.1 hc
    constructor <;> linarith
  · rw [if_neg hc]
    have := fun h => hc (hcond.2 h)
    exact ⟨not_lt.1 this, hhi⟩

theorem roundHalfEven_ge (N D Z : Nat) (hD : 0 < D) (h : Z * D ≤ N) :
    Z ≤ roundHalfEven N D := by
  have h1 : Z ≤ N / D := (Nat.le_div_iff_mul_le hD).2 h
  unfold roundHalfEven
  split_ifs <;> omega

theorem roundHalfEven_le (N D Z : Nat) (hD : 0 < D) (h : N ≤ Z * D) :
    roundHalfEven N D ≤ Z := by
  by_cases hr : N % D = 0
  · have h1 : N / D ≤ Z := Nat.div_le_of_le_mul (by rw [Nat.mul_comm]; exact h)
    unfold roundHalfEven
    rw [hr]
    simp [hD, h1]
  · have h1 : N / D < Z := by
      rw [Nat.div_lt_iff_lt_mul hD]
      rcases Nat.lt_or_ge N (Z * D) with h2 | h2
      · exact h2
      · exact absurd (by rw [le_antisymm h h2, Nat.mul_mod_left]) hr
    unfold roundHalfEven
    split_ifs <;> omega

theorem roundQ_spec (n d : Nat) (hn : 0 < n) (hd : 0 < d) :
    IsRound ((n : ℚ) / d) (roundQ n d).1 (roundQ n d).2 := by
  obtain ⟨h1, h2⟩ := normScale_spec n d hn hd
  have hD := scaleDen_pos d (normScale n d) hd
  have hDq : (0 : ℚ) < (scaleDen d (normScale n d) : ℕ) := by exact_mod_cast hD
  have hr := scale_ratio n d (normScale n d) hd
  unfold roundQ IsRound
  simp only [neg_neg]
  refine ⟨h1, h2, ?_, ?_⟩
  · intro Z hZ
    apply roundHalfEven_ge _ _ _ hD
    rw [← hr, le_div_iff₀ hDq] at hZ
    exact_mod_cast hZ
  · intro Z hZ
    apply roundHalfEven_le _ _ _ hD
    rw [← hr, div_le_iff₀ hDq] at hZ
    exact_mod_cast hZ

theorem IsRound.shift {x : ℚ} {m : Nat} {e : Int} (h : IsRound x m e) (s : Int) :
    IsRound (x * 2 ^ s) m (e + s) := by
  have : x * 2 ^ s * 2 ^ (-(e + s)) = x * 2 ^ (-e) := by
    rw [mul_assoc, ← zpow_add₀ (by norm_num : (2 : ℚ) ≠ 0)]
    congr 2
    ring
  unfold IsRound
  rw [this]
  exact h

theorem IsRound.man_pos {x : ℚ} {m : Nat} {e : Int} (h : IsRound x m e) : 2 ^ 52 ≤ m := by
  apply h.2.2.1
  exact_mod_cast h.1

/-- A rounding is exact when the scaled value is a natural number. -/
theorem IsRound.exact_of_nat {x : ℚ} {m : Nat} {e : Int} (h : IsRound x m e) (Z : Nat)
    (hZ : x * 2 ^ (-e) = Z) : (m : ℚ) * 2 ^ e = x := by
  have h1 : Z ≤ m := h.2.2.1 Z hZ.ge
  have h2 : m ≤ Z := h.2.2.2 Z hZ.le
  have h3 : m = Z := le_antisymm h2 h1
  rw [h3, ← hZ, mul_assoc, ← zpow_add₀ (by norm_num : (2 : ℚ) ≠ 0)]
  simp

/-- Upper bound on the exponent chosen for a value below `2^B`. -/
theorem IsRound.exp_lt {x : ℚ} {m : Nat} {e : Int} (h : IsRound x m e) (B : Int)
    (hx : x < 2 ^ B) : e + 52 < B := by
  have hpos : (0 : ℚ) < 2 ^ (-e) := zpow_pos (by norm_num) _
  have h1 : (2 : ℚ) ^ (52 : ℤ) < 2 ^ (B + -e) := by
    rw [zpow_add₀ (by norm_num : (2 : ℚ) ≠ 0)]
    calc (2 : ℚ) ^ (52 : ℤ) = 2 ^ 52 := by norm_cast
      _ ≤ x * 2 ^ (-e) := h.1
      _ < 2 ^ B * 2 ^ (-e) := mul_lt_mul_of_pos_right hx hpos
  have := (zpow_lt_zpow_iff_right₀ (by norm_num : (1 : ℚ) < 2)).1 h1
  omega

/-- Lower bound on the exponent chosen for a value of at least `2^A`. -/
theorem IsRound.lt_exp {x : ℚ} {m : Nat} {e : Int} (h : IsRound x m e) (A : Int)
    (hx : 2 ^ A ≤ x) : A < e + 53 := by
  have hpos : (0 : ℚ) < 2 ^ (-e) := zpow_pos (by norm_num) _
  have h1 : (2 : ℚ) ^ (A + -e) < 2 ^ (53 : ℤ) := by
    rw [zpow_add₀ (by norm_num : (2 : ℚ) ≠ 0)]
    calc (2 : ℚ) ^ A * 2 ^ (-e) ≤ x * 2 ^ (-e) := mul_le_mul_of_nonneg_right hx hpos.le
      _ < 2 ^ 53 := h.2.1
      _ = 2 ^ (53 : ℤ) := by norm_cast
  have := (zpow_lt_zpow_iff_right₀ (by norm_num : (1 : ℚ) < 2)).1 h1
  omega

/-- A rounding is exact on `c * 2^j` with `c < 2^53`. -/
theorem IsRound.exact_dyadic {x : ℚ} {m : Nat} {e : Int} (h : IsRound x m e) (c : Nat)
    (j : Int) (hx : x = c * 2 ^ j) (hc : c < 2 ^ 53) : (m : ℚ) * 2 ^ e = x := by
  have h2 : (2 : ℚ) ≠ 0 := by norm_num
  have hcq : (c : ℚ) < 2 ^ 53 := by exact_mod_cast hc
  have hsc : x * 2 ^ (-e) = c * 2 ^ (j - e) := by
    rw [hx, mul_assoc, ← zpow_add₀ h2, sub_eq_add_neg]
  have hpos : (0 : ℚ) < 2 ^ (j - e) := zpow_pos (by norm_num) _
  have h1 : (2 : ℚ) ^ (52 : ℤ) < 2 ^ (53 + (j - e)) := by
    rw [zpow_add₀ h2]
    calc (2 : ℚ) ^ (52 : ℤ) = 2 ^ 52 := by norm_cast
      _ ≤ x * 2 ^ (-e) := h.1
      _ = c * 2 ^ (j - e) := hsc
      _ < 2 ^ 53 * 2 ^ (j - e) := mul_lt_mul_of_pos_right hcq hpos
      _ = 2 ^ (53 : ℤ) * 2 ^ (j - e) := by norm_cast
  have h3 := (zpow_lt_zpow_iff_right₀ (by norm_num : (1 : ℚ) < 2)).1 h1
  obtain ⟨i, hi⟩ := Int.eq_ofNat_of_zero_le (show 0 ≤ j - e by omega)
  apply h.exact_of_nat (c * 2 ^ i)
  rw [hsc, hi, zpow_natCast]
  push_cast
  ring

/-- The rounding stays below any bound that is a natural number at the chosen scale. -/
theorem IsRound.le_of_scaled {x : ℚ} {m : Nat} {e : Int} (h : IsRound x m e) (z : ℚ)
    (Z : Nat) (hz : z * 2 ^ (-e) = Z) (hx : x ≤ z) : (m : ℚ) * 2 ^ e ≤ z := by
  have hpos : (0 : ℚ) < 2 ^ (-e) := zpow_pos (by norm_num) _
  have hpos2 : (0 : ℚ) < 2 ^ e := zpow_pos (by norm_num) _
  have h1 : m ≤ Z := h.2.2.2 Z (by rw [← hz]; exact mul_le_mul_of_nonneg_right hx hpos.le)
  have h2 : (m : ℚ) ≤ Z := by exact_mod_cast h1
  have h3 : z = Z * 2 ^ e := by
    rw [← hz, mul_assoc, ← zpow_add₀ (by norm_num : (2 : ℚ) ≠ 0)]
    simp
  rw [h3]
  exact mul_le_mul_of_nonneg_right h2 hpos2.le

/-- The integer part of a rounding, from bounds on the value that was rounded. -/
theorem IsRound.trunc {x : ℚ} {m : Nat} {e : Int} (h : IsRound x m e) (k E : Nat)
    (he : e = -(E : ℤ)) (h1 : (k : ℚ) ≤ x) (h2 : x * 2 ^ E + 1 ≤ (k + 1) * 2 ^ E) :
    (k : ℚ) ≤ m * 2 ^ e ∧ (m : ℚ) * 2 ^ e < k + 1 := by
  subst he
  have hP : (0 : ℚ) < 2 ^ E := by positivity
  have hsc : x * 2 ^ (-(-(E : ℤ))) = x * 2 ^ E := by
    rw [neg_neg, zpow_natCast]
  have hlo : k * 2 ^ E ≤ m := by
    apply h.2.2.1
    rw [hsc]
    push_cast
    exact mul_le_mul_of_nonneg_right h1 hP.le
  have hone : 1 ≤ (k + 1) * 2 ^ E := Nat.one_le_iff_ne_zero.2 (by positivity)
  have hhi : m ≤ (k + 1) * 2 ^ E - 1 := by
    apply h.2.2.2
    rw [hsc, Nat.cast_sub hone]
    push_cast
    linarith
  have hloq : (k : ℚ) * 2 ^ E ≤ m := by exact_mod_cast hlo
  have hhiq : (m : ℚ) + 1 ≤ (k + 1) * 2 ^ E := by
    have : m + 1 ≤ (k + 1) * 2 ^ E := by omega
    exact_mod_cast this
  rw [zpow_neg, zpow_natCast]
  constructor
  · rw [← div_eq_mul_inv, le_div_iff₀ hP]
    exact hloq
  · rw [← div_eq_mul_inv, div_lt_iff₀ hP]
    linarith

theorem truncMag_spec (a : F64) :
    (a.truncMag : ℚ) ≤ a.man * 2 ^ a.exp ∧ (a.man : ℚ) * 2 ^ a.exp < a.truncMag + 1 := by
  unfold F64.truncMag
  by_cases hk : 0 ≤ a.exp
  · obtain ⟨j, hj⟩ := Int.eq_ofNat_of_zero_le hk
    rw [if_pos hk, hj, Int.toNat_ofNat, zpow_natCast]
    push_cast
    constructor <;> linarith
  · obtain ⟨j, hj⟩ := Int.eq_ofNat_of_zero_le (show 0 ≤ -a.exp by omega)
    have hk2 : a.exp = -(j : ℤ) := by omega
    have hP : (0 : ℚ) < 2 ^ j := by positivity
    have hPn : 0 < 2 ^ j := by positivity
    rw [if_neg hk, hj, Int.toNat_ofNat, hk2, zpow_neg, zpow_natCast, ← div_eq_mul_inv]
    constructor
    · have := @Nat.cast_div_le ℚ _ a.man (2 ^ j)
      simpa using this
    · rw [div_lt_iff₀ hP]
      have := Nat.lt_mul_div_succ a.man hPn
      have h2 : ((a.man : ℕ) : ℚ) < ((2 ^ j * (a.man / 2 ^ j + 1) : ℕ) : ℚ) := by
        exact_mod_cast this
      push_cast at h2
      linarith

theorem truncMag_eq (a : F64) (K : Nat) (h1 : (K : ℚ) ≤ a.man * 2 ^ a.exp)
    (h2 : (a.man : ℚ) * 2 ^ a.exp < K + 1) : a.truncMag = K := by
  obtain ⟨h3, h4⟩ := truncMag_spec a
  have h5 : (a.truncMag : ℚ) < K + 1 := lt_of_le_of_lt h3 h2
  have h6 : (K : ℚ) < a.truncMag + 1 := lt_of_le_of_lt h1 h4
  have h7 : a.truncMag < K + 1 := by exact_mod_cast h5
  have h8 : K < a.truncMag + 1 := by exact_mod_cast h6
  omega

/-! ## The binary64 operations -/

theorem Rounds.val_eq {a : F64} {x : ℚ} (h : Rounds a x) : a.val = a.man * 2 ^ a.exp := by
  unfold F64.val
  rw [h.1]
  simp

theorem Rounds.man_ne_zero {a : F64} {x : ℚ} (h : Rounds a x) : a.man ≠ 0 := by
  have := h.2.man_pos
  positivity

theorem ofInt_rounds (i : Int) (hi : 0 < i) : Rounds (F64.ofInt i) i := by
  have hne : i ≠ 0 := by omega
  have hn : 0 < i.natAbs := by omega
  have h := roundQ_spec i.natAbs 1 hn (by norm_num)
  have hc : ((i.natAbs : ℕ) : ℚ) / ((1 : ℕ) : ℚ) = i := by
    rw [Nat.cast_one, div_one]
    rw [Nat.cast_natAbs, abs_of_nonneg hi.le]
  rw [hc] at h
  unfold F64.ofInt Rounds
  rw [if_neg hne]
  refine ⟨?_, h⟩
  simp only [decide_eq_false_iff_not]
  omega

theorem ofInt_val (i : Int) (hi : 0 < i) (h53 : i < 2 ^ 53) : (F64.ofInt i).val = i := by
  have h := ofInt_rounds i hi
  rw [h.val_eq]
  obtain ⟨c, hc⟩ := Int.eq_ofNat_of_zero_le hi.le
  apply h.2.exact_dyadic c 0
  · rw [hc]
    simp
  · omega

theorem mul_rounds {a b : F64} {x y : ℚ} (ha : Rounds a x) (hb : Rounds b y) :
    Rounds (F64.mul a b) (a.val * b.val) := by
  have ha0 := ha.man_ne_zero
  have hb0 := hb.man_ne_zero
  have h := ((roundQ_spec (a.man * b.man) 1 (by positivity) (by norm_num)).shift
    a.exp).shift b.exp
  have hx : ((a.man * b.man : ℕ) : ℚ) / ((1 : ℕ) : ℚ) * 2 ^ a.exp * 2 ^ b.exp
      = a.val * b.val := by
    rw [ha.val_eq, hb.val_eq]
    push_cast
    ring
  rw [hx] at h
  unfold F64.mul Rounds
  rw [if_neg (by tauto)]
  refine ⟨?_, h⟩
  simp [ha.1, hb.1]

theorem div_rounds {a b : F64} {x y : ℚ} (ha : Rounds a x) (hb : Rounds b y) :
    ∃ q, F64.div a b = some q ∧ Rounds q (a.val / b.val) := by
  have ha0 := ha.man_ne_zero
  have hb0 := hb.man_ne_zero
  have hbq : (b.man : ℚ) ≠ 0 := by exact_mod_cast hb0
  have h2 : (2 : ℚ) ^ b.exp ≠ 0 := (zpow_pos (by norm_num) _).ne.symm
  have h := ((roundQ_spec a.man b.man (by positivity) (by positivity)).shift
    a.exp).shift (-b.exp)
  have hx : ((a.man : ℕ) : ℚ) / ((b.man : ℕ) : ℚ) * 2 ^ a.exp * 2 ^ (-b.exp)
      = a.val / b.val := by
    rw [ha.val_eq, hb.val_eq, zpow_neg]
    field_simp
  rw [hx, ← sub_eq_add_neg] at h
  unfold F64.div
  rw [if_neg hb0, if_neg ha0]
  refine ⟨_, rfl, ?_, h⟩
  simp [ha.1, hb.1]

theorem intOfF64_of_bounds (a : F64) (K : Nat) (hneg : a.neg = false)
    (h1 : (K : ℚ) ≤ a.man * 2 ^ a.exp) (h2 : (a.man : ℚ) * 2 ^ a.exp < K + 1)
    (hK : K < 2 ^ 63) : intOfF64 (some a) = .ok (K : Int) := by
  have h := truncMag_eq a K h1 h2
  have ht : a.toInt = some (K : Int) := by
    unfold F64.toInt
    rw [h, if_pos (Or.inl hK), hneg]
    simp
  simp only [intOfF64, ht]

theorem intOfF64_zero (s : Bool) : intOfF64 (some ⟨s, 0, 0⟩) = .ok 0 := by
  cases s <;> rfl

theorem abs_eq_self (a : F64) (h : a.neg = false) : F64.abs a = a := by
  cases a
  simp_all [F64.abs]

theorem intOfF64_ofInt (n : Nat) (h : n < 2 ^ 53) :
    intOfF64 (some (F64.ofInt n)) = .ok (n : Int) := by
  rcases Nat.eq_zero_or_pos n with h0 | hpos
  · subst h0
    rfl
  · have hr := ofInt_rounds n (by exact_mod_cast hpos)
    have hv := ofInt_val n (by exact_mod_cast hpos) (by exact_mod_cast h)
    rw [hr.val_eq] at hv
    have hv2 : ((F64.ofInt n).man : ℚ) * 2 ^ (F64.ofInt n).exp = n := by
      rw [hv]
      simp
    apply intOfF64_of_bounds _ n hr.1
    · rw [hv2]
    · rw [hv2]
      linarith
    · calc n < 2 ^ 53 := h
        _ < 2 ^ 63 := by norm_num

theorem subU16_lt (a b : Nat) : subU16 a b < 65536 := by
  unfold subU16
  omega

theorem barWidth_eq (wscol header : Nat) :
    barWidth wscol header = .ok (subU16 wscol header : Int) := by
  have hlt := subU16_lt wscol header
  unfold barWidth
  rcases Nat.eq_zero_or_pos (subU16 wscol header) with h0 | hpos
  · rw [h0]
    rfl
  · rw [abs_eq_self _ (ofInt_rounds _ (by exact_mod_cast hpos)).1]
    apply intOfF64_ofInt
    calc subU16 wscol header < 65536 := hlt
      _ < 2 ^ 53 := by norm_num

theorem ofInt_val_ge (i : Int) (h : 2 ^ 53 ≤ i) : (2 : ℚ) ^ 53 ≤ (F64.ofInt i).val := by
  have hi : 0 < i := lt_of_lt_of_le (by norm_num) h
  have hr := ofInt_rounds i hi
  rw [hr.val_eq]
  have hx : (2 : ℚ) ^ (53 : ℤ) ≤ (i : ℚ) := by
    have : ((2 ^ 53 : ℤ) : ℚ) ≤ (i : ℚ) := by exact_mod_cast h
    calc (2 : ℚ) ^ (53 : ℤ) = ((2 ^ 53 : ℤ) : ℚ) := by norm_cast
      _ ≤ i := this
  have he := hr.2.lt_exp 53 hx
  have hm := hr.2.man_pos
  have hmq : (2 : ℚ) ^ 52 ≤ (F64.ofInt i).man := by exact_mod_cast hm
  have h2e : (2 : ℚ) ^ (1 : ℤ) ≤ 2 ^ (F64.ofInt i).exp :=
    zpow_le_zpow_right₀ (by norm_num) (by omega)
  calc (2 : ℚ) ^ 53 = 2 ^ 52 * 2 ^ (1 : ℤ) := by norm_num
    _ ≤ ((F64.ofInt i).man : ℚ) * 2 ^ (F64.ofInt i).exp :=
        mul_le_mul hmq h2e (by positivity) (by positivity)

/-- Dividing a natural number below `2^32` by a converted positive integer and truncating
gives the integer quotient. -/
theorem round_div_trunc (p T : Nat) (t : ℚ) (m : Nat) (e : Int) (hp : 0 < p)
    (hp2 : p < 2 ^ 32) (hT : 0 < T) (h1 : T < 2 ^ 53 → t = T)
    (h2 : 2 ^ 53 ≤ T → (2 : ℚ) ^ 53 ≤ t) (h : IsRound ((p : ℚ) / t) m e) :
    ((p / T : ℕ) : ℚ) ≤ m * 2 ^ e ∧ (m : ℚ) * 2 ^ e < (p / T : ℕ) + 1 := by
  have hpq : (0 : ℚ) < p := by exact_mod_cast hp
  have hp2q : (p : ℚ) < 2 ^ 32 := by exact_mod_cast hp2
  have hTq : (1 : ℚ) ≤ T := by exact_mod_cast hT
  have hTq0 : (0 : ℚ) < T := by linarith
  have ht1 : (1 : ℚ) ≤ t := by
    rcases Nat.lt_or_ge T (2 ^ 53) with hc | hc
    · rw [h1 hc]
      exact hTq
    · exact le_trans (by norm_num) (h2 hc)
  have ht0 : (0 : ℚ) < t := by linarith
  have hx32 : (p : ℚ) / t < 2 ^ (32 : ℤ) := by
    rw [div_lt_iff₀ ht0]
    have : (2 : ℚ) ^ (32 : ℤ) = 2 ^ 32 := by norm_cast
    rw [this]
    nlinarith
  have he := h.exp_lt 32 hx32
  obtain ⟨E, hE⟩ := Int.eq_ofNat_of_zero_le (show 0 ≤ -e by omega)
  have heE : e = -(E : ℤ) := by omega
  have hE1 : 1 ≤ E := by omega
  have hPE : (0 : ℚ) < 2 ^ E := by positivity
  apply h.trunc _ E heE
  · rcases Nat.lt_or_ge T (2 ^ 53) with hc | hc
    · rw [h1 hc]
      exact Nat.cast_div_le
    · have hlt : p < T := lt_of_lt_of_le (lt_trans hp2 (by norm_num)) hc
      rw [Nat.div_eq_of_lt hlt]
      simp only [Nat.cast_zero]
      positivity
  · rcases Nat.lt_or_ge T (2 ^ 53) with hc | hc
    · have hsc := h.1
      rw [h1 hc, heE, neg_neg, zpow_natCast, div_mul_eq_mul_div, le_div_iff₀ hTq0] at hsc
      rw [h1 hc]
      have ha : (p : ℚ) * 2 ^ E ≤ 2 ^ 52 * 2 ^ E :=
        mul_le_mul_of_nonneg_right (hp2q.le.trans (by norm_num)) hPE.le
      have hTE : (T : ℚ) ≤ 2 ^ E :=
        le_of_mul_le_mul_left (hsc.trans ha) (by norm_num)
      have hk : p + 1 ≤ (p / T + 1) * T := by
        have := Nat.lt_mul_div_succ p hT
        rw [Nat.mul_comm] at this
        exact this
      have hkq : (p : ℚ) + 1 ≤ ((p / T : ℕ) + 1) * T := by exact_mod_cast hk
      have key : (p : ℚ) * 2 ^ E + T ≤ ((p / T : ℕ) + 1) * 2 ^ E * T := by
        have := mul_le_mul_of_nonneg_right hkq hPE.le
        nlinarith
      have hform : (p : ℚ) / T * 2 ^ E + 1 = (p * 2 ^ E + T) / T := by
        field_simp
      rw [hform, div_le_iff₀ hTq0]
      exact key
    · have hlt : p < T := lt_of_lt_of_le (lt_trans hp2 (by norm_num)) hc
      have ht53 := h2 hc
      rw [Nat.div_eq_of_lt hlt]
      have hx : (p : ℚ) / t ≤ 1 / 2 := by
        rw [div_le_iff₀ ht0]
        have : (2 : ℚ) ^ 32 ≤ 1 / 2 * 2 ^ 53 := by norm_num
        nlinarith
      have h2E : (2 : ℚ) ≤ 2 ^ E := by
        calc (2 : ℚ) = 2 ^ 1 := by norm_num
          _ ≤ 2 ^ E := pow_le_pow_right₀ (by norm_num) hE1
      have := mul_le_mul_of_nonneg_right hx hPE.le
      simp only [Nat.cast_zero, zero_add, one_mul]
      linarith

theorem mul_of_man_zero (a b : F64) (h : a.man = 0 ∨ b.man = 0) :
    F64.mul a b = ⟨xor a.neg b.neg, 0, 0⟩ := by
  unfold F64.mul
  rw [if_pos h]

theorem div_of_man_zero (a b : F64) (ha : a.man = 0) (hb : b.man ≠ 0) :
    F64.div a b = some ⟨xor a.neg b.neg, 0, 0⟩ := by
  unfold F64.div
  rw [if_neg hb, if_pos ha]

/-- The value `barDone` is the integer quotient `barWidth * actual / Total`. -/
theorem barDone_eq (bw actual : Nat) (Total : Int) (hbw : bw < 65536) (ha : actual < 65536)
    (hT : 1 ≤ Total) :
    barDone bw actual Total = .ok ((bw * actual / Total.toNat : ℕ) : Int) := by
  have hTr := ofInt_rounds Total (by omega)
  unfold barDone
  rcases Nat.eq_zero_or_pos (bw * actual) with h0 | hpos
  · have hz : (F64.ofInt bw).man = 0 ∨ (F64.ofInt actual).man = 0 := by
      rcases Nat.mul_eq_zero.1 h0 with h | h
      · left
        rw [h]
        rfl
      · right
        rw [h]
        rfl
    rw [mul_of_man_zero _ _ hz, div_of_man_zero _ _ rfl hTr.man_ne_zero, intOfF64_zero, h0]
    simp
  · have hbpos : 0 < bw := Nat.pos_of_mul_pos_right hpos
    have hapos : 0 < actual := Nat.pos_of_mul_pos_left hpos
    have hA := ofInt_rounds bw (by exact_mod_cast hbpos)
    have hB := ofInt_rounds actual (by exact_mod_cast hapos)
    have hAv := ofInt_val bw (by exact_mod_cast hbpos) (by norm_cast; omega)
    have hBv := ofInt_val actual (by exact_mod_cast hapos) (by norm_cast; omega)
    have hp32 : bw * actual < 2 ^ 32 := by
      calc bw * actual < 65536 * 65536 := Nat.mul_lt_mul_of_lt_of_lt hbw ha
        _ = 2 ^ 32 := by norm_num
    have hM := mul_rounds hA hB
    rw [hAv, hBv] at hM
    have hMv : (F64.mul (F64.ofInt bw) (F64.ofInt actual)).val = ((bw * actual : ℕ) : ℚ) := by
      rw [hM.val_eq]
      rw [hM.2.exact_dyadic (bw * actual) 0 (by push_cast; simp)
        (lt_trans hp32 (by norm_num))]
      push_cast
      rfl
    obtain ⟨q, hq, hqr⟩ := div_rounds hM hTr
    rw [hMv] at hqr
    obtain ⟨T, hTn⟩ := Int.eq_ofNat_of_zero_le (show 0 ≤ Total by omega)
    have hTpos : 0 < T := by omega
    have hb := round_div_trunc (bw * actual) T (F64.ofInt Total).val q.man q.exp hpos hp32
      hTpos
      (by
        intro hc
        rw [ofInt_val Total (by omega) (by omega), hTn]
        simp)
      (by
        intro hc
        exact ofInt_val_ge Total (by omega))
      hqr.2
    rw [hq, hTn, Int.toNat_ofNat]
    apply intOfF64_of_bounds q _ hqr.1 hb.1 hb.2
    calc bw * actual / T ≤ bw * actual := Nat.div_le_self _ _
      _ < 2 ^ 32 := hp32
      _ < 2 ^ 63 := by norm_num

theorem percent_range (actual : Nat) (Total : Int) (ha : actual < 65536) (hT : 1 ≤ Total)
    (hle : (actual : Int) ≤ Total) :
    ∃ i : Nat, percent actual Total = .ok (i : Int) ∧ i ≤ 100 := by
  have hTr := ofInt_rounds Total (by omega)
  have h100 := ofInt_rounds 100 (by norm_num)
  have h100v : (F64.ofInt 100).val = 100 := by
    rw [ofInt_val 100 (by norm_num) (by norm_num)]
    norm_num
  unfold percent
  rcases Nat.eq_zero_or_pos actual with h0 | hpos
  · refine ⟨0, ?_, by norm_num⟩
    subst h0
    rw [div_of_man_zero _ _ rfl hTr.man_ne_zero, Option.map_some',
      mul_of_man_zero _ _ (Or.inl rfl), intOfF64_zero]
    rfl
  · have hB := ofInt_rounds actual (by exact_mod_cast hpos)
    have hBv := ofInt_val actual (by exact_mod_cast hpos) (by norm_cast; omega)
    obtain ⟨q, hq, hqr⟩ := div_rounds hB hTr
    rw [hBv] at hqr
    have haq : (0 : ℚ) < actual := by exact_mod_cast hpos
    have hat : ((actual : ℤ) : ℚ) ≤ (F64.ofInt Total).val := by
      rcases lt_or_ge Total (2 ^ 53) with hc | hc
      · rw [ofInt_val Total (by omega) hc]
        exact_mod_cast hle
      · have h1 := ofInt_val_ge Total hc
        have h2 : ((actual : ℤ) : ℚ) < 65536 := by exact_mod_cast ha
        have h3 : (65536 : ℚ) ≤ 2 ^ 53 := by norm_num
        linarith
    have ht0 : (0 : ℚ) < (F64.ofInt Total).val := by
      have : (0 : ℚ) < ((actual : ℤ) : ℚ) := by exact_mod_cast hpos
      linarith
    have hx1 : ((actual : ℤ) : ℚ) / (F64.ofInt Total).val ≤ 1 := by
      rw [div_le_iff₀ ht0]
      linarith
    have he := hqr.2.exp_lt 1 (lt_of_le_of_lt hx1 (by norm_num))
    obtain ⟨E, hE⟩ := Int.eq_ofNat_of_zero_le (show 0 ≤ -q.exp by omega)
    have hqv : q.val ≤ 1 := by
      rw [hqr.val_eq]
      apply hqr.2.le_of_scaled 1 (2 ^ E) _ hx1
      rw [hE, zpow_natCast]
      push_cast
      ring
    have hM := mul_rounds hqr h100
    rw [h100v] at hM
    have hx2 : q.val * 100 ≤ 100 := by linarith
    have he2 := hM.2.exp_lt 7 (lt_of_le_of_lt hx2 (by norm_num))
    obtain ⟨E2, hE2⟩ := Int.eq_ofNat_of_zero_le
      (show 0 ≤ -(F64.mul q (F64.ofInt 100)).exp by omega)
    have hMv : ((F64.mul q (F64.ofInt 100)).man : ℚ) * 2 ^ (F64.mul q (F64.ofInt 100)).exp
        ≤ 100 := by
      apply hM.2.le_of_scaled 100 (100 * 2 ^ E2) _ hx2
      rw [hE2, zpow_natCast]
      push_cast
      ring
    have hspec := (truncMag_spec (F64.mul q (F64.ofInt 100))).1
    have hle100 : (F64.mul q (F64.ofInt 100)).truncMag ≤ 100 := by
      have : ((F64.mul q (F64.ofInt 100)).truncMag : ℚ) ≤ 100 := le_trans hspec hMv
      exact_mod_cast this
    refine ⟨(F64.mul q (F64.ofInt 100)).truncMag, ?_, hle100⟩
    have ht : (F64.mul q (F64.ofInt 100)).toInt
        = some ((F64.mul q (F64.ofInt 100)).truncMag : Int) := by
      unfold F64.toInt
      rw [if_pos (Or.inl (lt_of_le_of_lt hle100 (by norm_num))), hM.1]
      simp
    rw [hq, Option.map_some']
    simp only [intOfF64, ht]


/-! ## Frame lemmas -/

@[simp]
theorem print_pb (w : World) (s : String) : (print w s).pb = w.pb := rfl
@[simp]
theorem print_out (w : World) (s : String) : (print w s).out = w.out ++ s := rfl
@[simp]
theorem print_calls (w : World) (s : String) :
    (print w s).cleanUpCalls = w.cleanUpCalls := rfl

@[simp]
theorem onceClose_actual (pb : ProgressBar) : (onceClose pb).actual = pb.actual := by
  unfold onceClose; split <;> rfl
@[simp]
theorem onceClose_Total (pb : ProgressBar) : (onceClose pb).Total = pb.Total := by
  unfold onceClose; split <;> rfl
@[simp]
theorem onceClose_wscol (pb : ProgressBar) : (onceClose pb).wscol = pb.wscol := by
  unfold onceClose; split <;> rfl
@[simp]
theorem onceClose_wsrow (pb : ProgressBar) : (onceClose pb).wsrow = pb.wsrow := by
  unfold onceClose; split <;> rfl
@[simp]
theorem onceClose_winSize (pb : ProgressBar) : (onceClose pb).winSize = pb.winSize := by
  unfold onceClose; split <;> rfl
@[simp]
theorem onceClose_multiLine (pb : ProgressBar) :
    (onceClose pb).multiLine = pb.multiLine := by
  unfold onceClose; split <;> rfl
@[simp]
theorem onceClose_async (pb : ProgressBar) : (onceClose pb).async = pb.async := by
  unfold onceClose; split <;> rfl
@[simp]
theorem onceClose_progressCh (pb : ProgressBar) :
    (onceClose pb).progressCh = pb.progressCh := by
  unfold onceClose; split <;> rfl

theorem onceClose_idem (pb : ProgressBar) : onceClose (onceClose pb) = onceClose pb := by
  unfold onceClose
  split_ifs <;> simp_all

theorem cleanUp_pb (w : World) : (cleanUp w).pb = onceClose w.pb := by
  unfold cleanUp
  simp only []
  split_ifs <;> rfl

theorem cleanUp_calls (w : World) : (cleanUp w).cleanUpCalls = w.cleanUpCalls + 1 := by
  unfold cleanUp
  simp only []
  split_ifs <;> rfl

theorem cleanUp_out (w : World) : (cleanUp w).out = w.out ++ cleanUpBytes w.pb := by
  unfold cleanUp cleanUpBytes
  simp only [onceClose_winSize, onceClose_multiLine, onceClose_wsrow]
  split_ifs <;> simp [String.append_assoc]

theorem frameStart_pb (w : World) : (frameStart w).pb = w.pb := by
  unfold frameStart
  split_ifs <;> rfl

theorem frameStart_calls (w : World) : (frameStart w).cleanUpCalls = w.cleanUpCalls := by
  unfold frameStart
  split_ifs <;> rfl

theorem frameStart_out (w : World) : (frameStart w).out = w.out ++ frameStartBytes w.pb := by
  unfold frameStart frameStartBytes
  split_ifs <;> simp [String.append_assoc]

theorem frameEnd_pb (w : World) : (frameEnd w).pb = w.pb := by
  unfold frameEnd
  split_ifs <;> rfl

theorem frameEnd_calls (w : World) : (frameEnd w).cleanUpCalls = w.cleanUpCalls := by
  unfold frameEnd
  split_ifs <;> rfl

theorem frameEnd_out (w : World) : (frameEnd w).out = w.out ++ frameEndBytes w.pb := by
  unfold frameEnd frameEndBytes
  split_ifs <;> simp

theorem drawFrame_pb (w : World) (pc : Int) (bar : String) :
    (drawFrame w pc bar).pb = w.pb ∨ (drawFrame w pc bar).pb = onceClose w.pb := by
  unfold drawFrame
  split_ifs
  · left; rfl
  · left; rfl
  · right; simp [cleanUp_pb]
  · left; rfl

@[simp]
theorem bump_Total (pb : ProgressBar) (c : Int) : (bump pb c).Total = pb.Total := by
  unfold bump; split <;> rfl
@[simp]
theorem bump_wscol (pb : ProgressBar) (c : Int) : (bump pb c).wscol = pb.wscol := by
  unfold bump; split <;> rfl
@[simp]
theorem bump_header (pb : ProgressBar) (c : Int) : (bump pb c).header = pb.header := by
  unfold bump; split <;> rfl
@[simp]
theorem bump_winSize (pb : ProgressBar) (c : Int) :
    (bump pb c).winSize = pb.winSize := by
  unfold bump; split <;> rfl
@[simp]
theorem bump_multiLine (pb : ProgressBar) (c : Int) :
    (bump pb c).multiLine = pb.multiLine := by
  unfold bump; split <;> rfl
@[simp]
theorem bump_async (pb : ProgressBar) (c : Int) : (bump pb c).async = pb.async := by
  unfold bump; split <;> rfl
@[simp]
theorem bump_progressCh (pb : ProgressBar) (c : Int) :
    (bump pb c).progressCh = pb.progressCh := by
  unfold bump; split <;> rfl
@[simp]
theorem bump_doneStr (pb : ProgressBar) (c : Int) : (bump pb c).doneStr = pb.doneStr := by
  unfold bump; split <;> rfl
@[simp]
theorem bump_ongoingStr (pb : ProgressBar) (c : Int) :
    (bump pb c).ongoingStr = pb.ongoingStr := by
  unfold bump; split <;> rfl

theorem toU16_le (t : Int) (h : 1 ≤ t) : ((toU16 t : ℕ) : Int) ≤ t := by
  unfold toU16
  omega

theorem bump_actual_lt (pb : ProgressBar) (c : Int) (h : pb.actual < 65536) :
    (bump pb c).actual < 65536 := by
  unfold bump addU16
  split
  · simp only []
    omega
  · exact h

theorem bump_actual_le (pb : ProgressBar) (c : Int) (hT : 1 ≤ pb.Total)
    (h : (pb.actual : Int) ≤ pb.Total) : ((bump pb c).actual : Int) ≤ pb.Total := by
  have := toU16_le pb.Total hT
  unfold bump
  split
  · simp only []
    omega
  · exact h

theorem barString_ok (d o : String) (bw bd : Nat) (h : bd ≤ bw) :
    barString d o bw bd = .ok ("[" ++ repeatStr d bd ++ repeatStr o (bw - bd) ++ "]") := by
  have h1 : ¬ ((bd : Int) < 0) := by omega
  have h2 : ¬ ((bw : Int) - bd < 0) := by omega
  have h3 : ((bw : Int) - bd).toNat = bw - bd := by omega
  unfold barString stringsRepeat
  rw [if_neg h1, if_neg h2, h3, Int.toNat_ofNat]
  rfl

theorem ok_bind {α β : Type} (a : α) (f : α → Except Fault β) :
    (Except.ok a >>= f) = f a := rfl

theorem Add_disabled (w : World) (count : Int)
    (h : w.pb.winSize.Col = 0 ∨ w.pb.winSize.Row = 0) : Add w count = .ok w := by
  unfold Add
  rw [if_pos h]

theorem Add_enabled (w : World) (count : Int) (hen : Enabled w) (bw bd pc : Int)
    (bar : String)
    (h1 : barWidth w.pb.wscol w.pb.header = .ok bw)
    (h2 : barDone bw (bump w.pb count).actual w.pb.Total = .ok bd)
    (h3 : barString w.pb.doneStr w.pb.ongoingStr bw bd = .ok bar)
    (h4 : percent (bump w.pb count).actual w.pb.Total = .ok pc) :
    Add w count
      = .ok (frameEnd (drawFrame (frameStart { w with pb := bump w.pb count }) pc bar)) := by
  have hne : ¬ (w.pb.winSize.Col = 0 ∨ w.pb.winSize.Row = 0) := by
    unfold Enabled at hen
    tauto
  unfold Add
  rw [if_neg hne]
  simp only [frameStart_pb, bump_wscol, bump_header, bump_Total, bump_doneStr,
    bump_ongoingStr, h1, h2, h3, h4, ok_bind]
  rfl

/-- With a positive total and a counter within it, `Add` returns normally. -/
theorem Add_ok (w : World) (count : Int) (hen : Enabled w) (hT : 1 ≤ w.pb.Total)
    (ha : w.pb.actual < 65536) (hle : (w.pb.actual : Int) ≤ w.pb.Total) :
    ∃ (pc : Nat) (bar : String), pc ≤ 100 ∧
      percent (bump w.pb count).actual w.pb.Total = .ok (pc : Int) ∧
      Add w count
        = .ok (frameEnd (drawFrame (frameStart { w with pb := bump w.pb count }) pc bar)) := by
  have ha2 := bump_actual_lt w.pb count ha
  have hle2 := bump_actual_le w.pb count hT hle
  obtain ⟨pc, hpc, hpc100⟩ := percent_range (bump w.pb count).actual w.pb.Total ha2 hT hle2
  have hbw := barWidth_eq w.pb.wscol w.pb.header
  have hbd := barDone_eq (subU16 w.pb.wscol w.pb.header) (bump w.pb count).actual w.pb.Total
    (subU16_lt _ _) ha2 hT
  have hdle : subU16 w.pb.wscol w.pb.header * (bump w.pb count).actual / w.pb.Total.toNat
      ≤ subU16 w.pb.wscol w.pb.header := by
    apply Nat.div_le_of_le_mul
    rw [Nat.mul_comm]
    apply Nat.mul_le_mul_right
    omega
  have hbar := barString_ok w.pb.doneStr w.pb.ongoingStr _ _ hdle
  exact ⟨pc, _, hpc100, hpc, Add_enabled w count hen _ _ _ _ hbw hbd hbar hpc⟩


theorem frame_pb (w : World) (pc : Int) (bar : String) :
    (frameEnd (drawFrame (frameStart w) pc bar)).pb = w.pb ∨
      (frameEnd (drawFrame (frameStart w) pc bar)).pb = onceClose w.pb := by
  rw [frameEnd_pb]
  rcases drawFrame_pb (frameStart w) pc bar with h | h
  · left
    rw [h, frameStart_pb]
  · right
    rw [h, frameStart_pb]

theorem drawFrame_calls (w : World) (pc : Int) (bar : String) :
    (drawFrame w pc bar).cleanUpCalls
      = w.cleanUpCalls + (if FinishedWide w.pb then 1 else 0) := by
  unfold drawFrame FinishedWide
  split_ifs <;> simp_all [cleanUp_calls]

theorem frame_calls (w : World) (pc : Int) (bar : String) :
    (frameEnd (drawFrame (frameStart w) pc bar)).cleanUpCalls
      = w.cleanUpCalls + (if FinishedWide w.pb then 1 else 0) := by
  rw [frameEnd_calls, drawFrame_calls, frameStart_calls, frameStart_pb]

theorem drawFrame_out_finished (w : World) (pc : Int) (bar : String)
    (h : FinishedWide w.pb) :
    (drawFrame w pc bar).out = w.out ++ cleanUpBytes w.pb ++ finishedText pc := by
  obtain ⟨h1, h2, h3⟩ := h
  unfold drawFrame finishedText
  rw [if_neg h1, if_neg h2, if_pos h3, print_out, cleanUp_out]

theorem drawFrame_pb_finished (w : World) (pc : Int) (bar : String)
    (h : FinishedWide w.pb) : (drawFrame w pc bar).pb = onceClose w.pb := by
  obtain ⟨h1, h2, h3⟩ := h
  unfold drawFrame
  rw [if_neg h1, if_neg h2, if_pos h3, print_pb, cleanUp_pb]

theorem frame_out_finished (w : World) (pc : Int) (bar : String) (h : FinishedWide w.pb) :
    (frameEnd (drawFrame (frameStart w) pc bar)).out
      = w.out ++ frameStartBytes w.pb ++ cleanUpBytes w.pb ++ finishedText pc
          ++ frameEndBytes w.pb := by
  have h' : FinishedWide (frameStart w).pb := by
    rw [frameStart_pb]
    exact h
  rw [frameEnd_out, drawFrame_out_finished _ _ _ h', drawFrame_pb_finished _ _ _ h',
    frameStart_out, frameStart_pb]
  unfold frameEndBytes
  rw [onceClose_multiLine]

/-! ## The invariant -/

theorem Add_good (total : Int) (w : World) (c : Int) (hT : 1 ≤ total) (h : Good total w) :
    ∃ w1, Add w c = .ok w1 ∧ Good total w1 := by
  obtain ⟨h1, h2, h3⟩ := h
  by_cases hen : Enabled w
  · obtain ⟨pc, bar, -, -, hadd⟩ := Add_ok w c hen (by omega) h2 (by omega)
    refine ⟨_, hadd, ?_⟩
    have hb1 := bump_actual_lt w.pb c h2
    have hb2 := bump_actual_le w.pb c (by omega) (by omega)
    unfold Good
    rcases frame_pb { w with pb := bump w.pb c } pc bar with hp | hp
    · rw [hp]
      simp only [bump_Total]
      exact ⟨h1, hb1, by omega⟩
    · rw [hp]
      simp only [onceClose_Total, onceClose_actual, bump_Total]
      exact ⟨h1, hb1, by omega⟩
  · have hd : w.pb.winSize.Col = 0 ∨ w.pb.winSize.Row = 0 := by
      unfold Enabled at hen
      tauto
    exact ⟨w, Add_disabled w c hd, h1, h2, h3⟩

theorem AddAsync_good (total : Int) (w : World) (c : Int) (h : Good total w) :
    Good total (AddAsync w c) := by
  unfold AddAsync Good at *
  split_ifs
  · rw [cleanUp_pb]
    simpa using h
  · exact h
  · exact h

theorem consume_good (total : Int) (w : World) (hT : 1 ≤ total) (h : Good total w) :
    ∃ w1, consume w = .ok w1 ∧ Good total w1 := by
  unfold consume
  split_ifs
  · cases hq : w.pb.progressCh with
    | nil => exact ⟨w, rfl, h⟩
    | cons p rest => exact Add_good total _ p hT h
  · exact ⟨w, rfl, h⟩

theorem step_good (total : Int) (w : World) (e : Event) (hT : 1 ≤ total) (h : Good total w) :
    ∃ w1, step w e = .ok w1 ∧ Good total w1 := by
  cases e with
  | add c => exact Add_good total w c hT h
  | addAsync c => exact ⟨_, rfl, AddAsync_good total w c h⟩
  | consume => exact consume_good total w hT h

theorem run_good (total : Int) (hT : 1 ≤ total) (es : List Event) :
    ∀ w, Good total w → ∃ w1, run w es = .ok w1 ∧ Good total w1 := by
  induction es with
  | nil => intro w h; exact ⟨w, rfl, h⟩
  | cons e es ih =>
    intro w h
    obtain ⟨w1, hs, hg⟩ := step_good total w e hT h
    obtain ⟨w2, hr, hg2⟩ := ih w1 hg
    refine ⟨w2, ?_, hg2⟩
    unfold run
    rw [hs]
    exact hr

theorem NewProgressBar_pb (total : Int) (r : Ioctl) :
    (NewProgressBar total r).pb.actual = 0 ∧ (NewProgressBar total r).pb.Total = total ∧
      (NewProgressBar total r).pb.progressCh = [] ∧
      (NewProgressBar total r).pb.doneStr = "#" ∧
      (NewProgressBar total r).pb.ongoingStr = " " ∧
      (NewProgressBar total r).cleanUpCalls = 0 := by
  cases r <;> simp only [NewProgressBar, updateWSize, checkIsTerminal] <;>
    (try split_ifs) <;> simp

theorem NewProgressBar_good (total : Int) (hT : 1 ≤ total) (r : Ioctl) :
    Good total (NewProgressBar total r) := by
  obtain ⟨h1, h2, -⟩ := NewProgressBar_pb total r
  unfold Good
  rw [h1, h2]
  exact ⟨rfl, by norm_num, by omega⟩

/-- C2: for every total of at least one, whatever the size query answered, a bar made by
any of the three constructors goes through every finite sequence of `Add` calls,
`AddAsync` calls and consumer turns, with arbitrary integer counts, without a fault, and
its counter is then still at most the total (and, being unsigned, at least zero). -/
theorem completed_le_total_invariant (total : Int) (hT : 1 ≤ total) (r : Ioctl)
    (es : List Event) :
    (∃ w, run (NewProgressBar total r) es = .ok w ∧ (w.pb.actual : Int) ≤ total) ∧
    (∃ w, run (NewAsyncProgressBar total r) es = .ok w ∧ (w.pb.actual : Int) ≤ total) ∧
    (∃ w, run (NewMultilineProgressBar total r) es = .ok w ∧
      (w.pb.actual : Int) ≤ total) := by
  have h0 := NewProgressBar_good total hT r
  refine ⟨?_, ?_, ?_⟩
  · obtain ⟨w, hr, hg⟩ := run_good total hT es _ h0
    exact ⟨w, hr, hg.2.2⟩
  · obtain ⟨w, hr, hg⟩ := run_good total hT es (NewAsyncProgressBar total r) h0
    exact ⟨w, hr, hg.2.2⟩
  · obtain ⟨w, hr, hg⟩ := run_good total hT es (NewMultilineProgressBar total r) h0
    exact ⟨w, hr, hg.2.2⟩

/-- Witness of C2: an asynchronous bar of total 10 on an 80 by 24 terminal, driven with counts above the total and above 65535. -/
theorem completed_le_total_invariant_witness :
    (1 : Int) ≤ 10 ∧
    (∃ w, run (NewAsyncProgressBar 10 (.ok 24 80 0 0))
        [.add 70000, .addAsync 3, .consume, .addAsync 65540, .consume, .add 12] = .ok w ∧
      (w.pb.actual : Int) ≤ 10) :=
  ⟨by decide, (completed_le_total_invariant 10 (by decide) (.ok 24 80 0 0)
    [.add 70000, .addAsync 3, .consume, .addAsync 65540, .consume, .add 12]).2.1⟩


/-! ## The counter (C1) -/

theorem Add_actual (w : World) (count : Int) (hen : Enabled w) (hT : 1 ≤ w.pb.Total)
    (ha : w.pb.actual < 65536) (hle : (w.pb.actual : Int) ≤ w.pb.Total) :
    ∃ w1, Add w count = .ok w1 ∧ w1.pb.actual = (bump w.pb count).actual := by
  obtain ⟨pc, bar, -, -, hadd⟩ := Add_ok w count hen hT ha hle
  refine ⟨_, hadd, ?_⟩
  rcases frame_pb { w with pb := bump w.pb count } pc bar with hp | hp
  · rw [hp]
  · rw [hp, onceClose_actual]

/-- C1, counterexample: with total 10 on an 80 by 24 terminal, three calls `Add(3)` bring
the counter to 9 and the fourth leaves it at 9, although `min(10, 9 + 3)` is 10. -/
theorem add_does_not_clamp :
    (run demoBar [.add 3, .add 3, .add 3]).toOption.map (fun w => w.pb.actual) = some 9 ∧
    (run demoBar [.add 3, .add 3, .add 3, .add 3]).toOption.map (fun w => w.pb.actual)
      = some 9 ∧
    (run demoBar [.add 3, .add 3, .add 3, .add 3]).toOption.map (fun w => w.pb.actual)
      ≠ some 10 ∧
    min (10 : Int) (9 + 3) = 10 := by
  decide

/-- C1, amended: with rendering enabled, a total of at least one and a counter within the
total, `Add(count)` returns normally and the counter becomes `(completed + count) mod 65536`
when that value is at most `total mod 65536`, and is left unchanged otherwise.  So it is
`completed + count` when `completed + count ≤ total ≤ 65535`, it is unchanged (the whole
increment is dropped, not clamped) when `total < completed + count ≤ 65535`, and in every
case it is at most the total. -/
theorem add_applies_or_drops (w : World) (count : Int) (hen : Enabled w)
    (hT : 1 ≤ w.pb.Total) (ha : w.pb.actual < 65536)
    (hle : (w.pb.actual : Int) ≤ w.pb.Total) (hc : 0 ≤ count) :
    ∃ w1, Add w count = .ok w1 ∧
      w1.pb.actual
        = (if (w.pb.actual + (count % 65536).toNat) % 65536 ≤ (w.pb.Total % 65536).toNat
           then (w.pb.actual + (count % 65536).toNat) % 65536 else w.pb.actual) ∧
      (w1.pb.actual : Int) ≤ w.pb.Total ∧
      (w.pb.actual + count ≤ w.pb.Total → w.pb.Total ≤ 65535 →
        (w1.pb.actual : Int) = w.pb.actual + count) ∧
      (w.pb.Total < w.pb.actual + count → w.pb.actual + count ≤ 65535 →
        w1.pb.actual = w.pb.actual) := by
  obtain ⟨w1, hadd, hact⟩ := Add_actual w count hen hT ha hle
  have hb := bump_actual_le w.pb count hT hle
  refine ⟨w1, hadd, ?_, ?_, ?_, ?_⟩
  · rw [hact]
    unfold bump addU16 toU16
    split_ifs <;> rfl
  · rw [hact]
    exact hb
  · intro h1 h2
    rw [hact]
    unfold bump addU16 toU16
    split_ifs with h3
    · simp only []
      omega
    · omega
  · intro h1 h2
    rw [hact]
    unfold bump addU16 toU16
    split_ifs with h3
    · omega
    · rfl

/-- Witness of C1 as amended: the bar of total 10 with 9 units completed receives `Add(3)`. -/
theorem add_applies_or_drops_witness :
    Enabled demoBar9 ∧ (1 : Int) ≤ demoBar9.pb.Total ∧ demoBar9.pb.actual < 65536 ∧
    (demoBar9.pb.actual : Int) ≤ demoBar9.pb.Total ∧ (0 : Int) ≤ 3 ∧
    ∃ w1, Add demoBar9 3 = .ok w1 ∧
      w1.pb.actual
        = (if (demoBar9.pb.actual + ((3 : Int) % 65536).toNat) % 65536
              ≤ (demoBar9.pb.Total % 65536).toNat
           then (demoBar9.pb.actual + ((3 : Int) % 65536).toNat) % 65536
           else demoBar9.pb.actual) ∧
      (w1.pb.actual : Int) ≤ demoBar9.pb.Total ∧
      (demoBar9.pb.actual + 3 ≤ demoBar9.pb.Total → demoBar9.pb.Total ≤ 65535 →
        (w1.pb.actual : Int) = demoBar9.pb.actual + 3) ∧
      (demoBar9.pb.Total < demoBar9.pb.actual + 3 → (demoBar9.pb.actual : Int) + 3 ≤ 65535 →
        w1.pb.actual = demoBar9.pb.actual) :=
  ⟨by decide, by decide, by decide, by decide, by decide,
    add_applies_or_drops demoBar9 3 (by decide) (by decide) (by decide) (by decide)
      (by decide)⟩

/-! ## The percentage (C3) -/

/-- C3: with 29 of 100 units completed, `Add` computes and renders 28 percent, while
`floor(29 * 100 / 100)` is 29: the quotient `29.0 / 100.0` rounds to a binary64 number
just below 0.29, its product with 100 rounds to a number just below 29, and the conversion
to `int` truncates. -/
theorem percent_29_of_100 :
    percent 29 100 = .ok 28 ∧ (29 * 100 / 100 : Int) = 29 ∧
    (Add (NewProgressBar 100 (.ok 24 80 0 0)) 29).toOption.map (fun w => w.out)
      = some ((NewProgressBar 100 (.ok 24 80 0 0)).out ++ "\x1B[1000D"
          ++ "\x1b[1;94mProgress: \x1b[1;0m[\x1B[1;33m 28%\x1B[0m] "
          ++ "[" ++ repeatStr "#" 17 ++ repeatStr " " 44 ++ "]") :=
  ⟨rfl, by decide, by decide⟩

/-! ## The layout (C4, C5) -/

/-- C4: on a terminal of 21 (and of 25) columns `updateWSize` stores the header
reservation 19 of the widest layout, yet `Add` writes the middle layout, a percentage and
a bar without the `Progress:` label; the label only appears from 26 columns on. -/
theorem draw_layout_at_21_columns :
    (NewProgressBar 10 (.ok 24 21 0 0)).pb.header = 19 ∧
    (Add (NewProgressBar 10 (.ok 24 21 0 0)) 5).toOption.map (fun w => w.out)
      = some ((NewProgressBar 10 (.ok 24 21 0 0)).out ++ "\x1B[1000D"
          ++ "[\x1B[33m 50%\x1B[0m] [# ]") ∧
    (NewProgressBar 10 (.ok 24 25 0 0)).pb.header = 19 ∧
    (Add (NewProgressBar 10 (.ok 24 25 0 0)) 5).toOption.map (fun w => w.out)
      = some ((NewProgressBar 10 (.ok 24 25 0 0)).out ++ "\x1B[1000D"
          ++ "[\x1B[33m 50%\x1B[0m] [###   ]") ∧
    (NewProgressBar 10 (.ok 24 26 0 0)).pb.header = 19 ∧
    (Add (NewProgressBar 10 (.ok 24 26 0 0)) 5).toOption.map (fun w => w.out)
      = some ((NewProgressBar 10 (.ok 24 26 0 0)).out ++ "\x1B[1000D"
          ++ "\x1b[1;94mProgress: \x1b[1;0m[\x1B[1;33m 50%\x1B[0m] [###    ]") := by
  decide

/-- C5: on a terminal of 5 columns `updateWSize` records width 5 and header 6, and the
bar width `Add` computes from them is 65535, not `max(0, 5 - 6) = 0`: the `uint16`
subtraction wraps around before `math.Abs` is applied. -/
theorem barWidth_at_5_columns :
    (NewProgressBar 10 (.ok 24 5 0 0)).pb.wscol = 5 ∧
    (NewProgressBar 10 (.ok 24 5 0 0)).pb.header = 6 ∧
    barWidth (NewProgressBar 10 (.ok 24 5 0 0)).pb.wscol
      (NewProgressBar 10 (.ok 24 5 0 0)).pb.header = .ok 65535 ∧
    max (0 : Int) (5 - 6) = 0 :=
  ⟨by decide, by decide, rfl, by decide⟩


/-! ## The bar string (C6) -/

theorem repeatStr_length (n : Nat) (s : String) :
    (repeatStr s n).length = n * s.length := by
  induction n with
  | zero => simp [repeatStr, Nat.repeat]
  | succ k ih =>
    have : repeatStr s (k + 1) = repeatStr s k ++ s := rfl
    rw [this, String.length_append, ih]
    ring

/-- C6: every bar width `Add` computes is a natural number below 65536, and the glyphs
set by `NewProgressBar` are `#` and a blank.  For every such width, every total of at
least one and every counter within the total, `barDone` is `floor(barWidth * completed /
total)` and lies between 0 and `barWidth`, no call of `strings.Repeat` fails, and the bar
string is an opening bracket, `barDone` done glyphs, `barWidth - barDone` ongoing glyphs
and a closing bracket, of length `barWidth + 2`. -/
theorem bar_string_shape (bw actual : Nat) (Total : Int) (hbw : bw < 65536)
    (ha : actual < 65536) (hT : 1 ≤ Total) (hle : (actual : Int) ≤ Total) :
    (∀ wscol header, ∃ b : Nat, barWidth wscol header = .ok (b : Int) ∧ b < 65536) ∧
    (∀ total r, (NewProgressBar total r).pb.doneStr = "#" ∧
      (NewProgressBar total r).pb.ongoingStr = " ") ∧
    ∃ bd : Nat, barDone bw actual Total = .ok (bd : Int) ∧
      (bd : Int) = (bw : Int) * (actual : Int) / Total ∧ bd ≤ bw ∧
      barString "#" " " bw bd
        = .ok ("[" ++ repeatStr "#" bd ++ repeatStr " " (bw - bd) ++ "]") ∧
      ("[" ++ repeatStr "#" bd ++ repeatStr " " (bw - bd) ++ "]").length = bw + 2 := by
  refine ⟨?_, ?_, ?_⟩
  · intro wscol header
    exact ⟨_, barWidth_eq wscol header, subU16_lt wscol header⟩
  · intro total r
    obtain ⟨-, -, -, h4, h5, -⟩ := NewProgressBar_pb total r
    exact ⟨h4, h5⟩
  · obtain ⟨T, hTn⟩ := Int.eq_ofNat_of_zero_le (show 0 ≤ Total by omega)
    have hdle : bw * actual / Total.toNat ≤ bw := by
      apply Nat.div_le_of_le_mul
      rw [Nat.mul_comm]
      apply Nat.mul_le_mul_right
      omega
    refine ⟨bw * actual / Total.toNat, barDone_eq bw actual Total hbw ha hT, ?_, hdle,
      barString_ok "#" " " _ _ hdle, ?_⟩
    · rw [hTn, Int.toNat_ofNat]
      push_cast
      rfl
    · simp only [String.length_append, repeatStr_length]
      have h1 : "[".length = 1 := rfl
      have h2 : "]".length = 1 := rfl
      have h3 : "#".length = 1 := rfl
      have h4 : " ".length = 1 := rfl
      rw [h1, h2, h3, h4]
      omega

/-- Witness of C6: bar width 61, 5 of 10 units completed. -/
theorem bar_string_shape_witness :
    (61 : Nat) < 65536 ∧ (5 : Nat) < 65536 ∧ (1 : Int) ≤ 10 ∧ ((5 : Nat) : Int) ≤ 10 ∧
    ∃ bd : Nat, barDone (61 : Nat) 5 10 = .ok (bd : Int) ∧
      (bd : Int) = ((61 : Nat) : Int) * ((5 : Nat) : Int) / 10 ∧ bd ≤ 61 ∧
      barString "#" " " (61 : Nat) bd
        = .ok ("[" ++ repeatStr "#" bd ++ repeatStr " " (61 - bd) ++ "]") ∧
      ("[" ++ repeatStr "#" bd ++ repeatStr " " (61 - bd) ++ "]").length = 61 + 2 :=
  ⟨by decide, by decide, by decide, by decide,
    (bar_string_shape 61 5 10 (by decide) (by decide) (by decide) (by decide)).2.2⟩

/-! ## Rendering disabled (C7) -/

/-- C7: when the stored window size has no column or no row, `Add` returns the bar and
the output exactly as they were; `AddAsync`, the consumer turn that serves it, and
`cleanUp` leave the output unchanged.  A bar built while the size query reports that
standard input is not a terminal is such a bar. -/
theorem disabled_is_silent (w : World) (count : Int)
    (h : w.pb.winSize.Col = 0 ∨ w.pb.winSize.Row = 0) :
    Add w count = .ok w ∧
    (AddAsync w count).out = w.out ∧
    (∃ w1, consume (AddAsync w count) = .ok w1 ∧ w1.out = w.out) ∧
    (cleanUp w).out = w.out ∧
    (∀ total, (NewProgressBar total .enotty).pb.winSize.Col = 0 ∧
      (NewProgressBar total .enodev).pb.winSize.Col = 0 ∧
      (NewAsyncProgressBar total .enotty).pb.winSize.Col = 0 ∧
      (NewMultilineProgressBar total .enotty).pb.winSize.Col = 0 ∧
      (NewProgressBar total .enotty).out = "") := by
  have hcb : cleanUpBytes w.pb = "" := by
    unfold cleanUpBytes
    rw [if_pos h]
  have hcl : (cleanUp w).out = w.out := by
    rw [cleanUp_out, hcb, String.append_empty]
  have hasync : (AddAsync w count).out = w.out := by
    unfold AddAsync
    split_ifs
    · exact hcl
    · rfl
    · rfl
  have hws : (AddAsync w count).pb.winSize = w.pb.winSize := by
    unfold AddAsync
    split_ifs
    · rw [cleanUp_pb, onceClose_winSize]
    · rfl
    · rfl
  refine ⟨Add_disabled w count h, hasync, ?_, hcl, ?_⟩
  · unfold consume
    split_ifs
    · cases hq : (AddAsync w count).pb.progressCh with
      | nil => exact ⟨_, rfl, hasync⟩
      | cons p rest =>
        refine ⟨_, Add_disabled _ p ?_, hasync⟩
        simp only [hws]
        exact h
    · exact ⟨_, rfl, hasync⟩
  · intro total
    exact ⟨rfl, rfl, rfl, rfl, rfl⟩

/-- Witness of C7: an asynchronous bar built while standard input is not a terminal. -/
theorem disabled_is_silent_witness :
    ((NewAsyncProgressBar 8 .enotty).pb.winSize.Col = 0 ∨
      (NewAsyncProgressBar 8 .enotty).pb.winSize.Row = 0) ∧
    Add (NewAsyncProgressBar 8 .enotty) 1 = .ok (NewAsyncProgressBar 8 .enotty) ∧
    (AddAsync (NewAsyncProgressBar 8 .enotty) 1).out = (NewAsyncProgressBar 8 .enotty).out ∧
    (∃ w1, consume (AddAsync (NewAsyncProgressBar 8 .enotty) 1) = .ok w1 ∧
      w1.out = (NewAsyncProgressBar 8 .enotty).out) ∧
    (cleanUp (NewAsyncProgressBar 8 .enotty)).out = (NewAsyncProgressBar 8 .enotty).out :=
  ⟨by decide,
    (disabled_is_silent (NewAsyncProgressBar 8 .enotty) 1 (by decide)).1,
    (disabled_is_silent (NewAsyncProgressBar 8 .enotty) 1 (by decide)).2.1,
    (disabled_is_silent (NewAsyncProgressBar 8 .enotty) 1 (by decide)).2.2.1,
    (disabled_is_silent (NewAsyncProgressBar 8 .enotty) 1 (by decide)).2.2.2.1⟩

/-! ## Cleanup (C8) -/

/-- C8, counterexample: on a multi-line bar with a terminal of 80 columns and 24 rows the
second call of `cleanUp` writes the restore sequence a second time, so two calls do not
leave the output of one call. -/
theorem cleanUp_twice_writes_twice :
    (cleanUp (cleanUp demoMulti)).out
      = (cleanUp demoMulti).out ++ "\x1B7\x1B[0;24r\x1B[24;0f\x1B[0K\x1B8" ∧
    (cleanUp (cleanUp demoMulti)).out ≠ (cleanUp demoMulti).out ∧
    cleanUp (cleanUp demoMulti) ≠ cleanUp demoMulti := by
  decide

/-- C8, amended: a second call of `cleanUp` changes no field of the bar (the channel is
closed by the first call only), and every call, the second included, writes the bytes
`cleanUpBytes`: nothing in single-line mode or with rendering disabled, the restore
sequence in multi-line mode with rendering enabled. -/
theorem cleanUp_second_call (w : World) :
    (cleanUp (cleanUp w)).pb = (cleanUp w).pb ∧
    (cleanUp w).out = w.out ++ cleanUpBytes w.pb ∧
    (cleanUp (cleanUp w)).out = (cleanUp w).out ++ cleanUpBytes w.pb ∧
    ((w.pb.multiLine = false ∨ w.pb.winSize.Col = 0 ∨ w.pb.winSize.Row = 0) →
      cleanUpBytes w.pb = "" ∧ (cleanUp (cleanUp w)).out = (cleanUp w).out) ∧
    ((w.pb.multiLine = true ∧ w.pb.winSize.Col ≠ 0 ∧ w.pb.winSize.Row ≠ 0) →
      cleanUpBytes w.pb = "\x1B7" ++ ("\x1B[0;" ++ fmtD w.pb.wsrow ++ "r")
        ++ ("\x1B[" ++ fmtD w.pb.wsrow ++ ";0f") ++ "\x1B[0K" ++ "\x1B8") := by
  have h2 : (cleanUp (cleanUp w)).out = (cleanUp w).out ++ cleanUpBytes w.pb := by
    rw [cleanUp_out (cleanUp w), cleanUp_pb]
    unfold cleanUpBytes
    simp only [onceClose_winSize, onceClose_multiLine, onceClose_wsrow]
  refine ⟨?_, cleanUp_out w, h2, ?_, ?_⟩
  · rw [cleanUp_pb, cleanUp_pb, onceClose_idem]
  · intro h
    have hb : cleanUpBytes w.pb = "" := by
      unfold cleanUpBytes
      split_ifs with h3 h4
      · rfl
      · rcases h with h | h | h
        · rw [h] at h4
          exact absurd h4 (by decide)
        · exact absurd (Or.inl h) h3
        · exact absurd (Or.inr h) h3
      · rfl
    exact ⟨hb, by rw [h2, hb, String.append_empty]⟩
  · intro h
    unfold cleanUpBytes
    rw [if_neg (by tauto), if_pos h.1]

/-- Witness of C8 as amended: the single-line bar of total 10 on an 80 by 24 terminal. -/
theorem cleanUp_second_call_witness :
    (demoBar.pb.multiLine = false ∨ demoBar.pb.winSize.Col = 0 ∨ demoBar.pb.winSize.Row = 0) ∧
    cleanUpBytes demoBar.pb = "" ∧ (cleanUp (cleanUp demoBar)).out = (cleanUp demoBar).out ∧
    (cleanUp (cleanUp demoBar)).pb = (cleanUp demoBar).pb :=
  ⟨by decide, ((cleanUp_second_call demoBar).2.2.2.1 (by decide)).1,
    ((cleanUp_second_call demoBar).2.2.2.1 (by decide)).2, (cleanUp_second_call demoBar).1⟩


/-! ## The sequential schedule of an asynchronous bar (C9) -/

theorem wrapInt_small (i : Int) (h0 : 0 ≤ i) (h1 : i < 2 ^ 17) : wrapInt i = i := by
  unfold wrapInt
  omega

theorem NewAsyncProgressBar_at (N : Int) (row col xp yp : Nat) (hr : row % 65536 ≠ 0)
    (hc : col % 65536 ≠ 0) : AsyncAt N 0 (NewAsyncProgressBar N (.ok row col xp yp)) := by
  unfold AsyncAt Enabled
  simp only [NewAsyncProgressBar, NewProgressBar, updateWSize, checkIsTerminal]
  split_ifs <;> simp [hr, hc]

theorem bump_one (pb : ProgressBar) (N i : Nat) (hT : pb.Total = N) (ha : pb.actual = i)
    (hN : N ≤ 65535) (hi : i + 1 ≤ N) : (bump pb 1).actual = i + 1 := by
  unfold bump addU16 toU16
  rw [hT, ha, if_pos (by omega)]
  simp only []
  omega

theorem run_nil (w : World) : run w [] = .ok w := rfl

theorem run_cons (w : World) (e : Event) (es : List Event) :
    run w (e :: es) = (step w e).bind (fun w1 => run w1 es) := rfl

/-- A round of the sequential schedule that is not the last one. -/
theorem sequential_round (N i : Nat) (w : World) (hN : N ≤ 65535) (hi : i + 1 < N)
    (h : AsyncAt N i w) :
    ∃ w1, run w (.addAsync 1 :: .consume :: []) = .ok w1 ∧ AsyncAt N (i + 1) w1 := by
  obtain ⟨hT, hact, hasync, hq, hcalls, hen⟩ := h
  have hwrap : wrapInt (1 + (w.pb.actual : Int)) = 1 + (w.pb.actual : Int) :=
    wrapInt_small _ (by omega) (by rw [hact]; omega)
  have hw0 : ({ w with pb := { w.pb with progressCh := [], async := true } } : World)
      = w := by
    cases w with
    | mk pb out calls =>
      cases pb
      simp_all
  have hC : consume (AddAsync w 1) = Add w 1 := by
    unfold AddAsync
    rw [if_pos hasync, hwrap, if_neg (by rw [hT, hact]; omega), hq]
    unfold consume
    simp only [hasync, if_true, List.nil_append]
    exact congrArg (fun x => Add x 1) hw0
  obtain ⟨pc, bar, -, -, hadd⟩ := Add_ok w 1 hen (by rw [hT]; omega) (by omega)
    (by rw [hT, hact]; omega)
  have hb := bump_one w.pb N i hT hact hN (by omega)
  refine ⟨frameEnd (drawFrame (frameStart { w with pb := bump w.pb 1 }) pc bar), ?_, ?_⟩
  · simp only [run_cons, run_nil]
    show (consume (AddAsync w 1)).bind (fun w2 => Except.ok w2) = _
    rw [hC, hadd]
    rfl
  · have hnf : ¬ FinishedWide (bump w.pb 1) := by
      unfold FinishedWide toU16
      rw [hb, bump_Total, hT]
      omega
    have hcalls2 := frame_calls { w with pb := bump w.pb 1 } pc bar
    rw [if_neg hnf] at hcalls2
    have hpb := frame_pb { w with pb := bump w.pb 1 } pc bar
    unfold AsyncAt Enabled
    rw [hcalls2]
    rcases hpb with hp | hp
    · rw [hp]
      simp only [bump_Total, bump_async, bump_progressCh, bump_winSize]
      exact ⟨hT, hb, hasync, hq, hcalls, hen⟩
    · rw [hp]
      simp only [onceClose_Total, onceClose_actual, onceClose_async, onceClose_progressCh,
        onceClose_winSize, bump_Total, bump_async, bump_progressCh, bump_winSize]
      exact ⟨hT, hb, hasync, hq, hcalls, hen⟩

/-- The last round of the sequential schedule: the call runs `cleanUp` and sends nothing. -/
theorem sequential_last (N i : Nat) (w : World) (hN : N ≤ 65535) (hi : i + 1 = N)
    (h : AsyncAt N i w) :
    ∃ w1, run w (.addAsync 1 :: .consume :: []) = .ok w1 ∧ w1.pb.actual = i ∧
      w1.cleanUpCalls = 1 ∧ w1.pb.progressCh = [] := by
  obtain ⟨hT, hact, hasync, hq, hcalls, hen⟩ := h
  have hwrap : wrapInt (1 + (w.pb.actual : Int)) = 1 + (w.pb.actual : Int) :=
    wrapInt_small _ (by omega) (by rw [hact]; omega)
  have hA : AddAsync w 1 = cleanUp w := by
    unfold AddAsync
    rw [if_pos hasync, hwrap, if_pos (by rw [hT, hact]; omega)]
  have hC : consume (cleanUp w) = .ok (cleanUp w) := by
    unfold consume
    rw [cleanUp_pb, onceClose_async, onceClose_progressCh, if_pos hasync, hq]
  refine ⟨cleanUp w, ?_, ?_, ?_, ?_⟩
  · simp only [run_cons, run_nil]
    show (consume (AddAsync w 1)).bind (fun w2 => Except.ok w2) = _
    rw [hA, hC]
    rfl
  · rw [cleanUp_pb, onceClose_actual, hact]
  · rw [cleanUp_calls, hcalls]
  · rw [cleanUp_pb, onceClose_progressCh, hq]

theorem run_cons_cons (w : World) (e1 e2 : Event) (es : List Event) (w1 : World)
    (h : run w (e1 :: e2 :: []) = .ok w1) : run w (e1 :: e2 :: es) = run w1 es := by
  simp only [run_cons, run_nil] at h ⊢
  cases h1 : step w e1 with
  | error f => simp [h1, Except.bind] at h
  | ok a =>
    simp only [h1, Except.bind] at h ⊢
    cases h2 : step a e2 with
    | error f => simp [h2] at h
    | ok b =>
      simp only [h2, Except.ok.injEq] at h ⊢
      rw [h]

theorem sequential_run (N : Nat) (hN : N ≤ 65535) (n : Nat) :
    ∀ (i : Nat) (w : World), AsyncAt N i w → i + (n + 1) = N →
      ∃ w1, run w (sequential (n + 1)) = .ok w1 ∧ w1.pb.actual = N - 1 ∧
        w1.cleanUpCalls = 1 ∧ w1.pb.progressCh = [] := by
  induction n with
  | zero =>
    intro i w h hi
    obtain ⟨w1, hr, h1, h2, h3⟩ := sequential_last N i w hN (by omega) h
    exact ⟨w1, hr, by omega, h2, h3⟩
  | succ k ih =>
    intro i w h hi
    obtain ⟨w1, hr, hat⟩ := sequential_round N i w hN (by omega) h
    obtain ⟨w2, hr2, hres⟩ := ih (i + 1) w1 hat (by omega)
    refine ⟨w2, ?_, hres⟩
    show run w (.addAsync 1 :: .consume :: sequential (k + 1)) = _
    rw [run_cons_cons w _ _ _ w1 hr]
    exact hr2

/-- In the sequential schedule the finishing increment is lost for every total: for every
`N` from 1 to 65535 and every terminal size with a column and a row, the `N` calls
`AddAsync(1)` return without a fault and leave the counter at `N - 1`, with nothing
waiting on the channel and one invocation of `cleanUp`, made by the last call in place
of sending its increment. -/
theorem sequential_stops_one_short (N row col xp yp : Nat) (h1 : 1 ≤ N)
    (hN : N ≤ 65535) (hr : row % 65536 ≠ 0) (hc : col % 65536 ≠ 0) :
    ∃ w, run (NewAsyncProgressBar N (.ok row col xp yp)) (sequential N) = .ok w ∧
      w.pb.actual = N - 1 ∧ w.cleanUpCalls = 1 ∧ w.pb.progressCh = [] := by
  obtain ⟨n, rfl⟩ : ∃ n, N = n + 1 := ⟨N - 1, by omega⟩
  exact sequential_run (n + 1) hN n 0 _ (NewAsyncProgressBar_at _ row col xp yp hr hc)
    (by omega)

/-- C9: an asynchronous bar for 8 units on an 80 by 24 terminal, served in the sequential
schedule, ends after its eight calls `AddAsync(1)` with the counter at 7, not 8, and its
last frame is the unfinished one at 87 percent: the eighth call finds
`count + completed >= total`, runs `cleanUp` and never sends its increment.  The
sibling paths do finish: eight direct calls `Add(1)` reach 8 with one cleanup, and so does
the asynchronous bar when all eight calls are sent before the consumer applies any. -/
theorem async_sequential_8_stops_at_7 :
    (run (NewAsyncProgressBar 8 (.ok 24 80 0 0)) (sequential 8)).toOption.map
        (fun w => (w.pb.actual, w.cleanUpCalls, w.pb.progressCh)) = some (7, 1, []) ∧
    (run (NewAsyncProgressBar 8 (.ok 24 80 0 0)) (sequential 8)).toOption.map
        (fun w => w.pb.actual) ≠ some 8 ∧
    (run (NewAsyncProgressBar 8 (.ok 24 80 0 0)) (sequential 8)).toOption.map
        (fun w => w.out) =
      (run (NewAsyncProgressBar 8 (.ok 24 80 0 0)) (sequential 7)).toOption.map
        (fun w => w.out) ∧
    (run (NewAsyncProgressBar 8 (.ok 24 80 0 0)) (sequential 6)).toOption.bind
        (fun w => (run w [.addAsync 1, .consume]).toOption.map (fun w1 => w1.out))
      = (run (NewAsyncProgressBar 8 (.ok 24 80 0 0)) (sequential 6)).toOption.map
        (fun w => w.out ++ "\x1B[1000D"
          ++ "\x1b[1;94mProgress: \x1b[1;0m[\x1B[1;33m 87%\x1B[0m] "
          ++ "[" ++ repeatStr "#" 53 ++ repeatStr " " 8 ++ "]") ∧
    (run (NewProgressBar 8 (.ok 24 80 0 0))
        [.add 1, .add 1, .add 1, .add 1, .add 1, .add 1, .add 1, .add 1]).toOption.map
        (fun w => (w.pb.actual, w.cleanUpCalls)) = some (8, 1) ∧
    (run (NewAsyncProgressBar 8 (.ok 24 80 0 0))
        [.addAsync 1, .addAsync 1, .addAsync 1, .addAsync 1, .addAsync 1, .addAsync 1,
          .addAsync 1, .addAsync 1, .consume, .consume, .consume, .consume, .consume,
          .consume, .consume, .consume]).toOption.map
        (fun w => (w.pb.actual, w.cleanUpCalls, w.pb.progressCh)) = some (8, 1, []) := by
  decide


/-! ## The final frame (C10) -/

@[simp]
theorem bump_wsrow (pb : ProgressBar) (c : Int) : (bump pb c).wsrow = pb.wsrow := by
  unfold bump; split <;> rfl

theorem frameStartBytes_bump (pb : ProgressBar) (c : Int) :
    frameStartBytes (bump pb c) = frameStartBytes pb := by
  unfold frameStartBytes
  simp only [bump_multiLine, bump_wsrow]

theorem cleanUpBytes_bump (pb : ProgressBar) (c : Int) :
    cleanUpBytes (bump pb c) = cleanUpBytes pb := by
  unfold cleanUpBytes
  simp only [bump_multiLine, bump_wsrow, bump_winSize]

theorem frameEndBytes_bump (pb : ProgressBar) (c : Int) :
    frameEndBytes (bump pb c) = frameEndBytes pb := by
  unfold frameEndBytes
  simp only [bump_multiLine]

/-- C10, counterexample: on a terminal of 20 columns, `Add(1)` completes a bar of total 1
without any invocation of `cleanUp`; and on a multi-line bar of total 1 with 80 columns
the bytes of `cleanUp` are written before the text of the final frame, not after it. -/
theorem finish_without_cleanUp_at_20_columns :
    (Add (NewProgressBar 1 (.ok 24 20 0 0)) 1).toOption.map
        (fun w => (w.pb.actual, w.pb.Total, w.cleanUpCalls)) = some (1, 1, 0) ∧
    (Add (NewMultilineProgressBar 1 (.ok 24 80 0 0)) 1).toOption.map (fun w => w.out)
      = some ((NewMultilineProgressBar 1 (.ok 24 80 0 0)).out
          ++ "\x1B7\x1B[2K\x1B[0J\x1B[?47h\x1B[1J\x1B[?47l\x1B[24;0H"
          ++ "\x1B7\x1B[0;24r\x1B[24;0f\x1B[0K\x1B8"
          ++ "\x1b[1;92mFinished: \x1b[1;0m[\x1B[1;33m100%\x1B[0m]\n"
          ++ "\x1B8") := by
  decide

/-- C10, amended: for a bar with rendering enabled, a total of at least one, a counter
within the total and a width of at least 26 columns, in single-line and in multi-line
mode, a call of `Add` returns normally, and if the counter is then at least the total the
call has invoked `cleanUp` exactly once and has written, in this order, the cursor
handling of the frame, the bytes of `cleanUp`, the text of the final frame and the
deferred cursor restore: the cleanup bytes come before the final frame's text. -/
theorem finish_runs_cleanUp_before_text (w : World) (count : Int) (hen : Enabled w)
    (hT : 1 ≤ w.pb.Total) (ha : w.pb.actual < 65536)
    (hle : (w.pb.actual : Int) ≤ w.pb.Total) (hw : 26 ≤ w.pb.wscol) :
    ∃ (w1 : World) (pc : Nat), Add w count = .ok w1 ∧ pc ≤ 100 ∧
      (w.pb.Total ≤ (w1.pb.actual : Int) →
        w1.cleanUpCalls = w.cleanUpCalls + 1 ∧
        w1.out = w.out ++ frameStartBytes w.pb ++ cleanUpBytes w.pb ++ finishedText pc
          ++ frameEndBytes w.pb) := by
  obtain ⟨pc, bar, hpc, -, hadd⟩ := Add_ok w count hen hT ha hle
  refine ⟨_, pc, hadd, hpc, ?_⟩
  intro hfin
  have hb1 := bump_actual_lt w.pb count ha
  have hact : (frameEnd (drawFrame (frameStart { w with pb := bump w.pb count }) pc bar)).pb.actual
      = (bump w.pb count).actual := by
    rcases frame_pb { w with pb := bump w.pb count } pc bar with hp | hp
    · rw [hp]
    · rw [hp, onceClose_actual]
  rw [hact] at hfin
  have hfw : FinishedWide (bump w.pb count) := by
    unfold FinishedWide toU16
    rw [bump_wscol, bump_Total]
    refine ⟨by omega, by omega, ?_⟩
    omega
  have hcalls := frame_calls { w with pb := bump w.pb count } pc bar
  rw [if_pos hfw] at hcalls
  have hout := frame_out_finished { w with pb := bump w.pb count } pc bar hfw
  simp only [frameStartBytes_bump, cleanUpBytes_bump, frameEndBytes_bump] at hout
  exact ⟨hcalls, hout⟩

/-- Witness of C10 as amended: the bar of total 10 with 9 units completed receives `Add(1)`. -/
theorem finish_runs_cleanUp_before_text_witness :
    Enabled demoBar9 ∧ (1 : Int) ≤ demoBar9.pb.Total ∧ demoBar9.pb.actual < 65536 ∧
    (demoBar9.pb.actual : Int) ≤ demoBar9.pb.Total ∧ 26 ≤ demoBar9.pb.wscol ∧
    ∃ (w1 : World) (pc : Nat), Add demoBar9 1 = .ok w1 ∧ pc ≤ 100 ∧
      (demoBar9.pb.Total ≤ (w1.pb.actual : Int) →
        w1.cleanUpCalls = demoBar9.cleanUpCalls + 1 ∧
        w1.out = demoBar9.out ++ frameStartBytes demoBar9.pb ++ cleanUpBytes demoBar9.pb
          ++ finishedText pc ++ frameEndBytes demoBar9.pb) :=
  ⟨by decide, by decide, by decide, by decide, by decide,
    finish_runs_cleanUp_before_text demoBar9 1 (by decide) (by decide) (by decide)
      (by decide) (by decide)⟩


end Pbar
